import Mathlib

/-!
Verification of the structural extraction pipeline of the LaTeX-to-mind-map
converter (src/latex_to_mindmap.py).

Strings are modelled as `List Char` (`Str`).  Each Python regular-expression
pass of the source is embedded as an explicit left-to-right scanner with the
exact leftmost-match / backtracking semantics of Python `re`; scanners that
skip ahead in the input take an explicit fuel argument (one unit per scan
step), and the public wrappers supply `length + 1` fuel, which is always
sufficient because every step consumes at least one character.
-/

namespace LatexMindmap

abbrev Str := List Char

/-- Python `\s` for the ASCII range (space, tab, newline, CR, FF, VT). -/
def isSpaceCh (c : Char) : Bool :=
  c = ' ' || c = '\t' || c = '\n' || c = '\x0d' || c = '\x0b' || c = '\x0c'

/-- Python `[a-zA-Z]`. -/
def isAlphaCh (c : Char) : Bool :=
  ('a' ≤ c && c ≤ 'z') || ('A' ≤ c && c ≤ 'Z')

/-- Remove trailing ASCII whitespace. -/
def rstripWs : Str → Str
  | [] => []
  | c :: rest =>
    match rstripWs rest with
    | [] => if isSpaceCh c then [] else [c]
    | r => c :: r

/-- Python `str.strip()` restricted to ASCII whitespace. -/
def stripWs (s : Str) : Str := rstripWs (s.dropWhile isSpaceCh)

/-- Python slice `s[a:b]` (clamping, as Python slices do). -/
def sliceStr (s : Str) (a b : Nat) : Str := (s.drop a).take (b - a)

/-- Python `re.sub(r"\s+", " ", s)`: every maximal whitespace run becomes one space. -/
def collapseWs : Str → Str
  | [] => []
  | [c] => if isSpaceCh c then [' '] else [c]
  | c₁ :: c₂ :: rest =>
    if isSpaceCh c₁ && isSpaceCh c₂ then collapseWs (c₂ :: rest)
    else (if isSpaceCh c₁ then ' ' else c₁) :: collapseWs (c₂ :: rest)

/-- Index of the first occurrence of the literal `pat` in `s` (Python `str.find`),
as an offset, if any. -/
def findLit (pat : Str) : Str → Option Nat
  | [] => if pat = [] then some 0 else none
  | c :: rest =>
    if pat.isPrefixOf (c :: rest) then some 0
    else (findLit pat rest).map (· + 1)

/-- Whether the literal `pat` occurs in `s` (Python `pat in s`). -/
def containsSub (pat s : Str) : Bool := (findLit pat s).isSome

/-- Python `str.replace(pat, repl)` (all occurrences, left to right,
replacements not rescanned).  Fueled scanner. -/
def replaceAllSubF (pat repl : Str) : Nat → Str → Str
  | 0, s => s
  | _ + 1, [] => []
  | fuel + 1, c :: rest =>
    if pat ≠ [] && pat.isPrefixOf (c :: rest) then
      repl ++ replaceAllSubF pat repl fuel ((c :: rest).drop pat.length)
    else c :: replaceAllSubF pat repl fuel rest

def replaceAllSub (pat repl s : Str) : Str := replaceAllSubF pat repl (s.length + 1) s

/-- Decimal digits of `n` (for the math placeholder tokens). -/
def natDigits (n : Nat) : Str := (Nat.repr n).data

/-- The placeholder the sanitizer substitutes for the `i`-th protected math span. -/
def mathPlaceholder (i : Nat) : Str :=
  "__MATH_PLACEHOLDER_".data ++ natDigits i ++ "__".data

/-- Pass protecting inline `$...$` math: Python
`re.sub(r"\$([^$]+)\$", replace_math, text)`.  At a `$` the regex matches a
nonempty run of non-`$` characters followed by a closing `$`; on failure the
scan advances one character.  Returns the rewritten text and the recorded
spans in order. -/
def protectDollarF : Nat → Nat → Str → Str × List Str
  | 0, _, s => (s, [])
  | _ + 1, _, [] => ([], [])
  | fuel + 1, k, c :: rest =>
    if c = '$' then
      let inner := rest.takeWhile (· ≠ '$')
      if inner ≠ [] && rest.drop inner.length ≠ [] then
        let (t, es) := protectDollarF fuel (k + 1) (rest.drop (inner.length + 1))
        (mathPlaceholder k ++ t, ('$' :: inner ++ ['$']) :: es)
      else
        let (t, es) := protectDollarF fuel k rest
        ('$' :: t, es)
    else
      let (t, es) := protectDollarF fuel k rest
      (c :: t, es)

/-- Pass protecting inline `\(...\)` math: Python
`re.sub(r"\\?\\\(([^)]+)\\\)", replace_math, t)`.  The match is one or two
backslashes, `(`, a nonempty run of non-`)` characters whose last character
must be a backslash (consumed by the closing `\)`), then `)`.  The inner
capture must stay nonempty after giving up that trailing backslash. -/
def parenBody (rest : Str) : Option (Str × Nat) :=
  let t := rest.takeWhile (· ≠ ')')
  if t.length ≥ 2 && t.getLast? = some '\\' && rest.drop t.length ≠ [] then
    some (t, t.length + 1)
  else none

def protectParenF : Nat → Nat → Str → Str × List Str
  | 0, _, s => (s, [])
  | _ + 1, _, [] => ([], [])
  | fuel + 1, k, c :: rest =>
    if c = '\\' then
      match rest with
      | '\\' :: '(' :: r2 =>
        match parenBody r2 with
        | some (t, consumed) =>
          let (out, es) := protectParenF fuel (k + 1) (r2.drop consumed)
          (mathPlaceholder k ++ out,
            ('\\' :: '\\' :: '(' :: t ++ [')']) :: es)
        | none =>
          let (out, es) := protectParenF fuel k rest
          ('\\' :: out, es)
      | '(' :: r2 =>
        match parenBody r2 with
        | some (t, consumed) =>
          let (out, es) := protectParenF fuel (k + 1) (r2.drop consumed)
          (mathPlaceholder k ++ out, ('\\' :: '(' :: t ++ [')']) :: es)
        | none =>
          let (out, es) := protectParenF fuel k rest
          ('\\' :: out, es)
      | _ =>
        let (out, es) := protectParenF fuel k rest
        ('\\' :: out, es)
    else
      let (out, es) := protectParenF fuel k rest
      (c :: out, es)

/-- Python `re.sub(r"\\[a-zA-Z]+\*?\{([^}]*)\}", r"\1", t)`: a command with a
brace argument collapses to the argument.  The letter run is maximal (shorter
runs cannot be followed by `{`), the argument runs to the first `}`. -/
def stripCmdArgF : Nat → Str → Str
  | 0, s => s
  | _ + 1, [] => []
  | fuel + 1, c :: rest =>
    if c = '\\' then
      let w := rest.takeWhile isAlphaCh
      if w ≠ [] then
        let after := rest.drop w.length
        match after with
        | '*' :: '\x7b' :: r2 =>
          let inner := r2.takeWhile (· ≠ '\x7d')
          if r2.drop inner.length ≠ [] then
            inner ++ stripCmdArgF fuel (r2.drop (inner.length + 1))
          else '\\' :: stripCmdArgF fuel rest
        | '\x7b' :: r2 =>
          let inner := r2.takeWhile (· ≠ '\x7d')
          if r2.drop inner.length ≠ [] then
            inner ++ stripCmdArgF fuel (r2.drop (inner.length + 1))
          else '\\' :: stripCmdArgF fuel rest
        | _ => '\\' :: stripCmdArgF fuel rest
      else '\\' :: stripCmdArgF fuel rest
    else c :: stripCmdArgF fuel rest

/-- Python `re.sub(r"\\[a-zA-Z]+\*?(?!\()", "", t)`: a bare command is
deleted.  Because `[a-zA-Z]+` backtracks against the negative lookahead
`(?!\()` (whose content is the escaped literal `(`), a command directly
followed by `(` loses all but its last letter; a single-letter command
followed by `(` is not matched at all; a `*` followed by `(` survives. -/
def stripBareCmdF : Nat → Str → Str
  | 0, s => s
  | _ + 1, [] => []
  | fuel + 1, c :: rest =>
    if c = '\\' then
      let w := rest.takeWhile isAlphaCh
      if w ≠ [] then
        let after := rest.drop w.length
        match after with
        | '*' :: r2 =>
          if r2.headI = '(' && r2 ≠ [] then
            -- star given back: match ends before the `*`
            stripBareCmdF fuel ('*' :: r2)
          else
            stripBareCmdF fuel r2
        | '(' :: r2 =>
          if w.length ≥ 2 then
            -- last letter given back: match ends before it
            stripBareCmdF fuel (w.getLast! :: '(' :: r2)
          else
            -- single letter: no match at this position, scan advances
            '\\' :: stripBareCmdF fuel rest
        | _ => stripBareCmdF fuel after
      else '\\' :: stripBareCmdF fuel rest
    else c :: stripBareCmdF fuel rest

/-- Python `re.sub(r"\{([^}]*)\}", r"\1", t)`: residual brace groups keep
their (possibly empty) inner text, which runs to the first `}`. -/
def stripBracesF : Nat → Str → Str
  | 0, s => s
  | _ + 1, [] => []
  | fuel + 1, c :: rest =>
    if c = '\x7b' then
      let inner := rest.takeWhile (· ≠ '\x7d')
      if rest.drop inner.length ≠ [] then
        inner ++ stripBracesF fuel (rest.drop (inner.length + 1))
      else '\x7b' :: stripBracesF fuel rest
    else c :: stripBracesF fuel rest

/-- Python `re.sub(r"\\\\", " ", t)`: each (non-overlapping) double backslash
becomes one space. -/
def stripDoubleBackslash : Str → Str
  | [] => []
  | [c] => [c]
  | c :: c2 :: rest =>
    if c = '\\' && c2 = '\\' then ' ' :: stripDoubleBackslash rest
    else c :: stripDoubleBackslash (c2 :: rest)

/-- Python `re.sub(r"[~]", " ", t)`. -/
def stripTilde (s : Str) : Str := s.map fun c => if c = '~' then ' ' else c

/-- Restoration loop: for each recorded span, in index order, replace all
occurrences of its placeholder. -/
def restoreMath (s : Str) : Nat → List Str → Str
  | _, [] => s
  | i, e :: es => restoreMath (replaceAllSub (mathPlaceholder i) e s) (i + 1) es

/-- Faithful embedding of `LatexParser._clean_latex_text`. -/
def cleanLatexText (text : Str) : Str :=
  let (t1, es1) := protectDollarF (text.length + 1) 0 text
  let (t2, es2) := protectParenF (t1.length + 1) es1.length t1
  let exprs := es1 ++ es2
  let t3 := stripCmdArgF (t2.length + 1) t2
  let t4 := stripBareCmdF (t3.length + 1) t3
  let t5 := stripBracesF (t4.length + 1) t4
  let t6 := stripDoubleBackslash t5
  let t7 := stripTilde t6
  let t8 := collapseWs t7
  stripWs (restoreMath t8 0 exprs)

/-! ## Regular-expression interval scanners -/

/-- A match of an environment pattern
`\begin{(name1|...)}(.*?)\end{\1}` (DOTALL): captured name, lazy inner text,
and the match's absolute span. -/
structure EnvMatch where
  name : Str
  inner : Str
  start : Nat
  stop : Nat
deriving DecidableEq, Repr

def beginLit : Str := "\\begin\x7b".data

def endLit (name : Str) : Str := "\\end\x7b".data ++ name ++ ['\x7d']

/-- The alternative (environment name followed by the closing brace) matching
at `r`; the listed names are pairwise non-prefix so at most one can match. -/
def tryEnvNames (names : List Str) (r : Str) : Option Str :=
  names.find? (fun n => (n ++ ['\x7d']).isPrefixOf r)

/-- Fueled `re.finditer` scanner for environment patterns: at each position
try `\begin{name}`, then the lazy inner text runs to the first `\end{name}`;
a failed attempt advances the scan by one character, a match continues at its
end (matches never overlap). -/
def envScanF (names : List Str) : Nat → Nat → Str → List EnvMatch
  | 0, _, _ => []
  | _ + 1, _, [] => []
  | fuel + 1, pos, c :: rest =>
    let s := c :: rest
    match (if beginLit.isPrefixOf s then tryEnvNames names (s.drop beginLit.length) else none) with
    | some name =>
      let r2 := s.drop (beginLit.length + name.length + 1)
      match findLit (endLit name) r2 with
      | some j =>
        let mlen := beginLit.length + name.length + 1 + j + (endLit name).length
        ⟨name, r2.take j, pos, pos + mlen⟩ :: envScanF names fuel (pos + mlen) (s.drop mlen)
      | none => envScanF names fuel (pos + 1) rest
    | none => envScanF names fuel (pos + 1) rest

def envScan (names : List Str) (s : Str) : List EnvMatch :=
  envScanF names (s.length + 1) 0 s

/-- Fueled scanner for a lazy pair-of-literals pattern such as
`\\\[(.*?)\\\]` or `\$\$(.*?)\$\$`: the inner capture runs to the first
occurrence of the closing literal (and may be empty). -/
def delimScanF (opn cls : Str) : Nat → Nat → Str → List (Str × Nat × Nat)
  | 0, _, _ => []
  | _ + 1, _, [] => []
  | fuel + 1, pos, c :: rest =>
    let s := c :: rest
    if opn.isPrefixOf s then
      match findLit cls (s.drop opn.length) with
      | some j =>
        let mlen := opn.length + j + cls.length
        ((s.drop opn.length).take j, pos, pos + mlen) :: delimScanF opn cls fuel (pos + mlen) (s.drop mlen)
      | none => delimScanF opn cls fuel (pos + 1) rest
    else delimScanF opn cls fuel (pos + 1) rest

def delimScan (opn cls : Str) (s : Str) : List (Str × Nat × Nat) :=
  delimScanF opn cls (s.length + 1) 0 s

/-- A match of `\\paragraph\{([^}]*)\}([^\\]*?)(?=\\|\Z)`: the label may be
empty, the lazily-matched body (checked against the lookahead) is exactly the
run of non-backslash characters following the closing brace. -/
structure ParaMatch where
  label : Str
  body : Str
  start : Nat
  stop : Nat
deriving DecidableEq, Repr

def paraLit : Str := "\\paragraph\x7b".data

def paragraphScanF : Nat → Nat → Str → List ParaMatch
  | 0, _, _ => []
  | _ + 1, _, [] => []
  | fuel + 1, pos, c :: rest =>
    let s := c :: rest
    if paraLit.isPrefixOf s then
      let r := s.drop paraLit.length
      let label := r.takeWhile (· ≠ '\x7d')
      if r.drop label.length ≠ [] then
        let r2 := r.drop (label.length + 1)
        let body := r2.takeWhile (· ≠ '\\')
        let mlen := paraLit.length + label.length + 1 + body.length
        ⟨label, body, pos, pos + mlen⟩ :: paragraphScanF fuel (pos + mlen) (s.drop mlen)
      else paragraphScanF fuel (pos + 1) rest
    else paragraphScanF fuel (pos + 1) rest

def paragraphScan (s : Str) : List ParaMatch :=
  paragraphScanF (s.length + 1) 0 s

/-- A match of the sectioning pattern `\\((?:sub)*(?:sub)*section)\{([^}]+)\}`:
the command (group 1, some number of `sub` prefixes then `section`) and its
nonempty brace argument (group 2, up to the first closing brace). -/
structure SecMatch where
  cmd : Str
  arg : Str
  start : Nat
  stop : Nat
deriving DecidableEq, Repr

/-- Number of leading `sub` repetitions (the starred groups are greedy, and
backtracking to fewer repetitions can never help because `section` does not
start with `sub`). -/
def countSubs : Str → Nat
  | 's' :: 'u' :: 'b' :: rest => countSubs rest + 1
  | _ => 0

def subPrefixStr : Nat → Str
  | 0 => []
  | n + 1 => "sub".data ++ subPrefixStr n

/-- Try the sectioning pattern just after a backslash; returns the captured
command, argument, and the number of characters consumed after the backslash. -/
def trySection (rest : Str) : Option (Str × Str × Nat) :=
  let n := countSubs rest
  let r := rest.drop (3 * n)
  if "section".data.isPrefixOf r then
    match r.drop 7 with
    | '\x7b' :: r3 =>
      let arg := r3.takeWhile (· ≠ '\x7d')
      if arg ≠ [] && r3.drop arg.length ≠ [] then
        some (subPrefixStr n ++ "section".data, arg, 3 * n + 7 + 1 + arg.length + 1)
      else none
    | _ => none
  else none

def sectionScanF : Nat → Nat → Str → List SecMatch
  | 0, _, _ => []
  | _ + 1, _, [] => []
  | fuel + 1, pos, c :: rest =>
    if c = '\\' then
      match trySection rest with
      | some (cmd, arg, k) => ⟨cmd, arg, pos, pos + 1 + k⟩ :: sectionScanF fuel (pos + 1 + k) (rest.drop k)
      | none => sectionScanF fuel (pos + 1) rest
    else sectionScanF fuel (pos + 1) rest

def sectionScan (s : Str) : List SecMatch := sectionScanF (s.length + 1) 0 s

/-! ## Level table and environment-name tables -/

/-- `LatexParser.SECTION_LEVELS`. -/
def sectionLevels : List (Str × Nat) :=
  [("part".data, 0), ("chapter".data, 1), ("section".data, 2), ("subsection".data, 3),
   ("subsubsection".data, 4), ("paragraph".data, 5), ("subparagraph".data, 6)]

/-- `self.SECTION_LEVELS.get(section_type, 2)`. -/
def sectionLevelOf (cmd : Str) : Nat :=
  ((sectionLevels.find? (fun e => e.1 == cmd)).map (·.2)).getD 2

/-- `LatexParser.THEOREM_ENVS`.  (The Python set's iteration order inside the
regex alternation is irrelevant: the names are pairwise distinct and each
alternative must be followed by a closing brace, so at most one can match at
a given position.) -/
def theoremEnvNames : List Str :=
  ["theorem".data, "lemma".data, "proposition".data, "corollary".data, "definition".data,
   "example".data, "remark".data, "note".data, "proof".data, "claim".data, "fact".data]

def eqEnvNames : List Str := ["align".data, "equation".data, "gather".data]

/-- Python ASCII `str.title()` (first letter of each letter-run uppercased,
the rest lowercased). -/
def pyTitleGo : Bool → Str → Str
  | _, [] => []
  | prevAlpha, c :: rest =>
    (if isAlphaCh c then (if prevAlpha then c.toLower else c.toUpper) else c)
      :: pyTitleGo (isAlphaCh c) rest

def pyTitle (s : Str) : Str := pyTitleGo false s

/-! ## Main-text / remaining-content split of a section span -/

def beginMarker (n : Str) : Str := beginLit ++ n ++ ['\x7d']

/-- The opening-marker literals of `_extract_main_text` /
`_extract_remaining_content` (each is a pattern with no closing requirement,
so its first regex match is the first literal occurrence). -/
def mainTextMarkers : List Str :=
  eqEnvNames.map beginMarker ++ ["\\[".data, "$$".data, paraLit]
    ++ theoremEnvNames.map beginMarker

/-- `first_math_pos`: minimum over the patterns of the first match position,
defaulting to the length of the content. -/
def firstMarkerPos (content : Str) : Nat :=
  (mainTextMarkers.filterMap (fun m => findLit m content)).foldl min content.length

/-- `LatexParser._extract_main_text`. -/
def extractMainText (content : Str) : Str :=
  let mt := stripWs (content.take (firstMarkerPos content))
  if mt ≠ [] then cleanLatexText mt else []

/-- `LatexParser._extract_remaining_content`. -/
def extractRemainingContent (content : Str) : Str :=
  if firstMarkerPos content < content.length then stripWs (content.drop (firstMarkerPos content))
  else []

/-! ## Block extractor: structural elements of one section span -/

inductive ElemType
  | eqn
  | thm
  | par
  | expl
deriving DecidableEq, Repr

/-- One entry of `all_elements` / `enhanced_elements` in
`_add_structured_content_to_section`. -/
structure Elem where
  etype : ElemType
  content : Str
  start : Nat
  stop : Nat
  title : Str
  expl : Option Str := none
deriving DecidableEq, Repr

/-- The three equation patterns, in source order, each filtered: a match whose
stripped inner text is empty contributes no element. -/
def eqElems (content : Str) : List Elem :=
  let keep : Str → Nat → Nat → Option Elem := fun inner a b =>
    let c := stripWs inner
    if c ≠ [] then some ⟨.eqn, c, a, b, "Key Equation".data, none⟩ else none
  (envScan eqEnvNames content).filterMap (fun m => keep m.inner m.start m.stop)
    ++ (delimScan "\\[".data "\\]".data content).filterMap (fun m => keep m.1 m.2.1 m.2.2)
    ++ (delimScan "$$".data "$$".data content).filterMap (fun m => keep m.1 m.2.1 m.2.2)

/-- Theorem-environment elements: appended unconditionally (even when the
sanitized body is empty). -/
def thmElems (content : Str) : List Elem :=
  (envScan theoremEnvNames content).map fun m =>
    ⟨.thm, cleanLatexText m.inner, m.start, m.stop, pyTitle m.name, none⟩

/-- Paragraph elements: kept only when the sanitized body is nonempty; an
empty sanitized label falls back to `"Note"`. -/
def paraElems (content : Str) : List Elem :=
  (paragraphScan content).filterMap fun m =>
    let pc := cleanLatexText m.body
    if pc ≠ [] then
      let pt := cleanLatexText m.label
      some ⟨.par, pc, m.start, m.stop, (if pt = [] then "Note".data else pt), none⟩
    else none

/-- Stable insertion into a list sorted by `start` (insert after equal keys),
matching Python's stable `list.sort(key=start)`. -/
def insertByStart (e : Elem) : List Elem → List Elem
  | [] => [e]
  | x :: xs => if x.start ≤ e.start then x :: insertByStart e xs else e :: x :: xs

def sortByStart (l : List Elem) : List Elem :=
  l.foldl (fun acc e => insertByStart e acc) []

def allElements (content : Str) : List Elem :=
  sortByStart (eqElems content ++ thmElems content ++ paraElems content)

/-- `re.match(r"^\\[a-zA-Z]+", t)` as a Bool. -/
def startsCmd : Str → Bool
  | '\\' :: c :: _ => isAlphaCh c
  | _ => false

/-- Gap text before the current element: attached to the previously emitted
element only if that element is an equation (appending with a separator when
an explanation already exists); otherwise the text is discarded. -/
def attachBefore (acc : List Elem) (tbc : Str) : List Elem :=
  match acc with
  | prev :: acc2 =>
    if prev.etype = ElemType.eqn then
      match prev.expl with
      | none => { prev with expl := some tbc } :: acc2
      | some ex => { prev with expl := some (ex ++ ' ' :: tbc) } :: acc2
    else prev :: acc2
  | [] => []

/-- Gap text before the current element (`text_before` handling of the
enhanced walk). -/
def walkStep1 (content : Str) (lastEnd : Nat) (x : Elem) (acc : List Elem) : List Elem :=
  if lastEnd < x.start then
    let tb := stripWs (sliceStr content lastEnd x.start)
    if tb ≠ [] && !startsCmd tb then
      let tbc := cleanLatexText tb
      if tbc ≠ [] then attachBefore acc tbc else acc
    else acc
  else acc

/-- Gap text after the current element (`text_after` handling): attached as
the equation's explanation, or emitted as a fresh explanation element. -/
def walkStep3 (content : Str) (x : Elem) (nextStart : Nat) (acc2 : List Elem) : List Elem :=
  let ta := stripWs (sliceStr content x.stop nextStart)
  if ta ≠ [] && !startsCmd ta then
    let tac := cleanLatexText ta
    if tac ≠ [] then
      if x.etype = ElemType.eqn then
        match acc2 with
        | cur :: acc4 => { cur with expl := some tac } :: acc4
        | [] => acc2
      else ⟨.expl, tac, x.stop, nextStart, "Explanation".data, none⟩ :: acc2
    else acc2
  else acc2

/-- The `enhanced_elements` walk of `_add_structured_content_to_section`
(the accumulator is kept reversed so its head is the last emitted element). -/
def walkElems (content : Str) : List Elem → Nat → List Elem → List Elem
  | [], _, acc => acc.reverse
  | e :: rest, lastEnd, acc =>
    let nextStart := match rest with | [] => content.length | e2 :: _ => e2.start
    walkElems content rest nextStart
      (walkStep3 content e nextStart (e :: walkStep1 content lastEnd e acc))

def enhancedElements (content : Str) : List Elem :=
  walkElems content (allElements content) 0 []

/-! ## Mind-map nodes and the mutable store -/

/-- `MindMapNode` (children as store indices; nodes are created in store
order, so every child index is larger than its parent's). -/
structure NodeData where
  title : Str
  content : Str
  ntype : Str
  level : Nat
  children : List Nat
deriving DecidableEq, Repr

def dummyNode : NodeData := ⟨[], [], [], 0, []⟩

abbrev Store := List NodeData

def getN : Store → Nat → NodeData
  | [], _ => dummyNode
  | a :: _, 0 => a
  | _ :: l, n + 1 => getN l n

def setN : Store → Nat → NodeData → Store
  | [], _, _ => []
  | _ :: l, 0, b => b :: l
  | a :: l, n + 1, b => a :: setN l n b

/-- `parent.add_child(child)`. -/
def attachChild (σ : Store) (p c : Nat) : Store :=
  setN σ p { getN σ p with children := (getN σ p).children ++ [c] }

/-- Create a node and append it as the last child of `p`. -/
def appendLeaf (σ : Store) (p : Nat) (nd : NodeData) : Store :=
  attachChild (σ ++ [nd]) p σ.length

def appendLeaves (σ : Store) (p : Nat) (nds : List NodeData) : Store :=
  nds.foldl (fun σ nd => appendLeaf σ p nd) σ

/-- Node created from one enhanced element (`_add_structured_content_to_section`,
node-creation loop).  The Python truthiness test `element['explanation']`
treats an empty explanation like a missing one. -/
def elementNode (secLevel : Nat) (e : Elem) : NodeData :=
  match e.etype with
  | .eqn =>
    match e.expl with
    | some ex =>
      if ex ≠ [] then
        ⟨"Key Equation".data, "$$".data ++ e.content ++ "$$ ".data ++ ex,
          "equation_with_explanation".data, secLevel + 1, []⟩
      else
        ⟨"Key Equation".data, "$$".data ++ e.content ++ "$$".data, "equation".data, secLevel + 1, []⟩
    | none =>
      ⟨"Key Equation".data, "$$".data ++ e.content ++ "$$".data, "equation".data, secLevel + 1, []⟩
  | .thm => ⟨e.title, e.content, "theorem".data, secLevel + 1, []⟩
  | .par => ⟨e.title, e.content, "paragraph".data, secLevel + 1, []⟩
  | .expl => ⟨e.title, e.content, "explanation".data, secLevel + 1, []⟩

/-- The ordered list of nodes `_add_structured_content_to_section` creates for
one content span under a parent at `secLevel`. -/
def structuredNodes (secLevel : Nat) (content : Str) : List NodeData :=
  (enhancedElements content).map (elementNode secLevel)

/-- `LatexParser._add_structured_content_to_section` (all created nodes are
leaves appended to the section in walk order). -/
def addStructuredContentToSection (σ : Store) (secId : Nat) (content : Str) : Store :=
  appendLeaves σ secId (structuredNodes (getN σ secId).level content)

/-! ## The section-stack segmenter -/

abbrev Stack := List (Nat × Nat)

def stackLookup (st : Stack) (k : Nat) : Option Nat :=
  (st.find? (fun e => e.1 == k)).map (·.2)

def stackInsert (st : Stack) (k id : Nat) : Stack :=
  (k, id) :: st.filter (fun e => e.1 ≠ k)

def stackEraseAbove (st : Stack) (k : Nat) : Stack :=
  st.filter (fun e => e.1 ≤ k)

/-- `max(section_stack.keys())` (the key 0 is never erased, so the stack is
never empty in any reachable state). -/
def stackMaxKey (st : Stack) : Nat :=
  st.foldl (fun m e => max m e.1) 0

/-- `LatexParser._add_content_to_current_section`: theorem environments first
(with the one-time definition merge into the current deepest node), then
`\begin{equation}` blocks. -/
def addContentToCurrentSection (σ : Store) (st : Stack) (content : Str) : Store :=
  match stackLookup st (stackMaxKey st) with
  | none => σ
  | some tid =>
    let σ1 := (envScan theoremEnvNames content).foldl (fun σ m =>
      let nd := getN σ tid
      if m.name = "definition".data ∧ nd.content = [] ∧ nd.children = [] then
        setN σ tid { nd with content := cleanLatexText m.inner,
                             ntype := "section_with_definition".data }
      else
        appendLeaf σ tid ⟨pyTitle m.name, cleanLatexText m.inner, m.name, nd.level + 1, []⟩) σ
    (envScan ["equation".data] content).foldl (fun σ m =>
      appendLeaf σ tid ⟨"Equation".data, "$$".data ++ stripWs m.inner ++ "$$".data,
        "equation".data, (getN σ tid).level + 1, []⟩) σ1

/-- `parent_level = level - 1; while parent_level >= 0 and parent_level not in
section_stack: parent_level -= 1`: the first (largest) open level below
`level`, if any. -/
def findParentId (stk : Stack) (level : Nat) : Option Nat :=
  match (List.range level).reverse.find? (fun k => (stackLookup stk k).isSome) with
  | some k => stackLookup stk k
  | none => none

structure PState where
  pos : Nat
  store : Store
  stack : Stack

/-- Pair each section match with the start of the next one (or the body
length for the last). -/
def pairWithNext (ms : List SecMatch) (len : Nat) : List (SecMatch × Nat) :=
  match ms with
  | [] => []
  | m :: rest =>
    (m, match rest with | [] => len | m2 :: _ => m2.start) :: pairWithNext rest len

/-- One iteration of the section loop of `_parse_with_regex_fallback`. -/
def stepSection (body : Str) (st : PState) (m : SecMatch) (nextStart : Nat) : PState :=
  let σa :=
    if st.pos < m.start then
      let pre := stripWs (sliceStr body st.pos m.start)
      if pre ≠ [] then addContentToCurrentSection st.store st.stack pre else st.store
    else st.store
  let sectionContent := stripWs (sliceStr body m.stop nextStart)
  let level := sectionLevelOf m.cmd
  let nd : NodeData :=
    ⟨cleanLatexText m.arg, extractMainText sectionContent, m.cmd, level, []⟩
  let id := σa.length
  let σb := σa ++ [nd]
  let σc :=
    match findParentId st.stack level with
    | some pid => attachChild σb pid id
    | none => σb
  let stack2 := stackEraseAbove (stackInsert st.stack level id) level
  let remaining := extractRemainingContent sectionContent
  let σd := if remaining ≠ [] then addStructuredContentToSection σc id remaining else σc
  ⟨nextStart, σd, stack2⟩

/-- `LatexParser._parse_with_regex_fallback` over a given root node.  The
result is the node store; index 0 is the root. -/
def parseWithRegexFallback (body : Str) (root : NodeData) : Store :=
  let ms := sectionScan body
  let st1 := (pairWithNext ms body.length).foldl
    (fun st p => stepSection body st p.1 p.2) ⟨0, [root], [(0, 0)]⟩
  if st1.pos < body.length then
    let rem := stripWs (sliceStr body st1.pos body.length)
    if rem ≠ [] then addContentToCurrentSection st1.store st1.stack rem else st1.store
  else st1.store

/-! ## Body extraction and document title -/

/-- `re.sub(lit + r".*?\n", "", s)`: the literal, then (since `.` does not
match newline) everything up to and including the first following newline;
with no following newline the attempt fails and the scan advances. -/
def subLineCmdF (lit : Str) : Nat → Str → Str
  | 0, s => s
  | _ + 1, [] => []
  | fuel + 1, c :: rest =>
    let s := c :: rest
    if lit.isPrefixOf s then
      let after := s.drop lit.length
      let run := after.takeWhile (· ≠ '\n')
      if after.drop run.length ≠ [] then
        subLineCmdF lit fuel (after.drop (run.length + 1))
      else c :: subLineCmdF lit fuel rest
    else c :: subLineCmdF lit fuel rest

def subLineCmd (lit s : Str) : Str := subLineCmdF lit (s.length + 1) s

/-- `re.sub(lit + r".*?\}\n?", "", s, flags=re.DOTALL)` where `lit` ends in the
opening brace: lazy inner (any character) to the first closing brace, then an
optional newline. -/
def subBraceCmdF (lit : Str) : Nat → Str → Str
  | 0, s => s
  | _ + 1, [] => []
  | fuel + 1, c :: rest =>
    let s := c :: rest
    if lit.isPrefixOf s then
      let after := s.drop lit.length
      match findLit ['\x7d'] after with
      | some j =>
        let rest2 := after.drop (j + 1)
        subBraceCmdF lit fuel (match rest2 with | '\n' :: r => r | _ => rest2)
      | none => c :: subBraceCmdF lit fuel rest
    else c :: subBraceCmdF lit fuel rest

def subBraceCmd (lit s : Str) : Str := subBraceCmdF lit (s.length + 1) s

/-- `re.sub(lit + r"\n?", "", s)`. -/
def subLitOptNlF (lit : Str) : Nat → Str → Str
  | 0, s => s
  | _ + 1, [] => []
  | fuel + 1, c :: rest =>
    let s := c :: rest
    if lit.isPrefixOf s then
      let after := s.drop lit.length
      subLitOptNlF lit fuel (match after with | '\n' :: r => r | _ => after)
    else c :: subLitOptNlF lit fuel rest

def subLitOptNl (lit s : Str) : Str := subLitOptNlF lit (s.length + 1) s

/-- `LatexParser._extract_document_body`. -/
def extractDocumentBody (input : Str) : Str :=
  match (delimScan "\\begin\x7bdocument\x7d".data "\\end\x7bdocument\x7d".data input).head? with
  | some m => m.1
  | none =>
    let c1 := subLineCmd "\\documentclass".data input
    let c2 := subLineCmd "\\usepackage".data c1
    let c3 := subBraceCmd "\\title\x7b".data c2
    let c4 := subBraceCmd "\\author\x7b".data c3
    let c5 := subBraceCmd "\\date\x7b".data c4
    let c6 := subLitOptNl "\\maketitle".data c5
    let c7 := subLineCmd "\\newtheorem".data c6
    stripWs c7

/-- First match of `lit + [^}]+ + "}"` (with `lit` ending in the opening
brace), returning the nonempty argument; a position with an empty or unclosed
argument is skipped, as `re.search` does. -/
def argScanF (lit : Str) : Nat → Str → Option Str
  | 0, _ => none
  | _ + 1, [] => none
  | fuel + 1, c :: rest =>
    let s := c :: rest
    if lit.isPrefixOf s then
      let r := s.drop lit.length
      let arg := r.takeWhile (· ≠ '\x7d')
      if arg ≠ [] && r.drop arg.length ≠ [] then some arg
      else argScanF lit fuel rest
    else argScanF lit fuel rest

def argScan (lit s : Str) : Option Str := argScanF lit (s.length + 1) s

/-- `LatexParser._extract_document_title`: the `\title` argument if present,
else the argument of the first `(sub)*section` command, else nothing. -/
def extractDocumentTitle (input : Str) : Option Str :=
  match argScan "\\title\x7b".data input with
  | some a => some (cleanLatexText a)
  | none => (sectionScan input).head?.map (fun m => cleanLatexText m.arg)

def defaultDocTitle : Str := "LaTeX Document".data

/-- `self._extract_document_title() or "LaTeX Document"` (Python `or` also
replaces an empty extracted title). -/
def rootTitle (input : Str) : Str :=
  match extractDocumentTitle input with
  | some t => if t = [] then defaultDocTitle else t
  | none => defaultDocTitle

/-- `LatexParser.parse` (the source forces the regex-fallback path on both
branches of its availability check). -/
def parse (input : Str) : Store :=
  parseWithRegexFallback (extractDocumentBody input)
    ⟨rootTitle input, [], "document".data, 0, []⟩

/-- Modelled from the spec: the sanitized argument of the first occurrence of
any of the seven sectioning commands (part, chapter, section, subsection,
subsubsection, paragraph, subparagraph) anywhere in the raw input.  (None of
the seven literals `\name\x7b` is a prefix of another, so at most one command
can match at a given position and alternation order is irrelevant.) -/
def specFirstSectioningArgF : Nat → Str → Option Str
  | 0, _ => none
  | _ + 1, [] => none
  | fuel + 1, c :: rest =>
    let s := c :: rest
    match (sectionLevels.map Prod.fst).findSome? (fun cmd =>
      let lit := '\\' :: cmd ++ ['\x7b']
      if lit.isPrefixOf s then
        let r := s.drop lit.length
        let arg := r.takeWhile (· ≠ '\x7d')
        if arg ≠ [] ∧ r.drop arg.length ≠ [] then some arg else none
      else none) with
    | some arg => some arg
    | none => specFirstSectioningArgF fuel rest

def specFirstSectioningArg (s : Str) : Option Str :=
  (specFirstSectioningArgF (s.length + 1) s).map cleanLatexText

/-- Modelled from the spec: title resolution order — the sanitized
title-declaration argument when present, else the sanitized argument of the
first sectioning command found anywhere in the raw input, else the fixed
placeholder. -/
def specDocumentTitle (input : Str) : Str :=
  match argScan "\\title\x7b".data input with
  | some a => cleanLatexText a
  | none =>
    match specFirstSectioningArg input with
    | some t => t
    | none => defaultDocTitle

/-! ## Outline renderer: per-node title computation -/

def isSentEnd (c : Char) : Bool := c = '.' || c = '!' || c = '?'

/-- Python `re.split(r"(?<=[.!?])\s+", text)`: split at each maximal
whitespace run immediately preceded by a sentence-ending character. -/
def sentenceSplitF : Nat → Str → Str → List Str
  | 0, cur, s => [cur.reverse ++ s]
  | _ + 1, cur, [] => [cur.reverse]
  | fuel + 1, cur, c :: rest =>
    if isSpaceCh c && (match cur with | p :: _ => isSentEnd p | [] => false) then
      cur.reverse :: sentenceSplitF fuel [] (rest.dropWhile isSpaceCh)
    else sentenceSplitF fuel (c :: cur) rest

def sentenceSplit (t : Str) : List Str := sentenceSplitF (t.length + 1) [] t

def discourseWords : List Str :=
  ["therefore".data, "thus".data, "however".data, "moreover".data, "furthermore".data]

def lowerStr (s : Str) : Str := s.map Char.toLower

def joinStr (sep : Str) : List Str → Str
  | [] => []
  | [x] => x
  | x :: xs => x ++ sep ++ joinStr sep xs

/-- Sentence-grouping loop of `MindMapFormatter._format_text_for_display`:
paragraphs break after three accumulated sentences or at a sentence containing
a discourse-marker word. -/
def fmtGroup : List Str → List Str → List Str → List Str
  | [], cur, paras => if cur ≠ [] then paras ++ [joinStr " ".data cur] else paras
  | s :: rest, cur, paras =>
    let cur2 := cur ++ [stripWs s]
    if cur2.length ≥ 3 || discourseWords.any (fun w => containsSub w (lowerStr s)) then
      fmtGroup rest [] (paras ++ [joinStr " ".data cur2])
    else fmtGroup rest cur2 paras

/-- `MindMapFormatter._format_text_for_display`. -/
def formatTextForDisplay (t : Str) : Str :=
  joinStr "<br><br>".data (fmtGroup (sentenceSplit t) [] [])

/-- Python `s.split(pat)` (all occurrences, left to right). -/
def splitOnSubF (pat : Str) : Nat → Str → List Str
  | 0, s => [s]
  | _ + 1, [] => [[]]
  | fuel + 1, c :: rest =>
    if pat ≠ [] && pat.isPrefixOf (c :: rest) then
      [] :: splitOnSubF pat fuel ((c :: rest).drop pat.length)
    else
      match splitOnSubF pat fuel rest with
      | p :: ps => (c :: p) :: ps
      | [] => [[c]]

def splitOnSub (pat s : Str) : List Str := splitOnSubF pat (s.length + 1) s

/-- Python `s.split(pat, 1)` when it actually splits (two pieces). -/
def splitFirstSub (pat s : Str) : Option (Str × Str) :=
  (findLit pat s).map (fun i => (s.take i, s.drop (i + pat.length)))

/-- The summary-label glyph sequences exactly as they appear (mojibake) in the
source: the four characters U+00F0 U+0178 U+201C U+0160 resp. U+2013. -/
def chartGlyphs : Str := ['\u00F0', '\u0178', '\u201C', '\u0160']

def bookGlyphs : Str := ['\u00F0', '\u0178', '\u201C', '\u2013']

def divOpen : Str :=
  "<div style=\x27max-width:400px;text-align:left;line-height:1.4;\x27>".data

def divClose : Str := "</div></details>".data

def detailsOpen (label : Str) : Str :=
  " <details><summary>".data ++ label ++ "</summary>".data ++ divOpen

/-- The title-line computation of `MindMapFormatter.to_markdown.format_node`
(lines 733–785): how one node's title and content combine, including the
compact-mode collapsible detail blocks. -/
def formatNodeTitle (title content ntype : Str) (markmap : Bool) (truncateAt : Nat) : Str :=
  if content ≠ [] ∧ content ≠ title then
    if ntype = "equation_with_explanation".data ∧ markmap then
      if containsSub "$$".data content then
        let parts := splitOnSub "$$".data content
        if parts.length ≥ 3 then
          let formula := "$$".data ++ parts.getD 1 [] ++ "$$".data
          let explanation := stripWs (joinStr "$$".data (parts.drop 2))
          if explanation ≠ [] then
            title ++ " ".data ++ formula
              ++ detailsOpen (chartGlyphs ++ " Explanation".data)
              ++ formatTextForDisplay explanation ++ divClose
          else title ++ " ".data ++ formula
        else title ++ " ".data ++ content
      else title
    else if markmap ∧ truncateAt < content.length then
      let shortTitle := if title.length ≤ 50 then title else title.take 47 ++ "...".data
      if content.headI = '$' then shortTitle ++ " ".data ++ content
      else if ntype = "equation_with_explanation".data then
        match splitFirstSub "$$ ".data content with
        | some (a, b) =>
          shortTitle ++ " ".data ++ (a ++ "$$".data)
            ++ detailsOpen (chartGlyphs ++ " Explanation".data)
            ++ formatTextForDisplay (stripWs b) ++ divClose
        | none =>
          shortTitle ++ detailsOpen (chartGlyphs ++ " Details".data)
            ++ formatTextForDisplay (stripWs (replaceAllSub "\\n".data " ".data content))
            ++ divClose
      else
        let contentClean := stripWs (content.map (fun c => if c = '\n' then ' ' else c))
        let label :=
          if ntype = "section_with_definition".data then bookGlyphs ++ " Definition".data
          else bookGlyphs ++ " Details".data
        shortTitle ++ detailsOpen label ++ formatTextForDisplay contentClean ++ divClose
    else if 200 < content.length then
      if content.headI = '$' then title ++ " ".data ++ content
      else title ++ ": ".data ++ (content.take 200 ++ "...".data)
    else
      if content.headI = '$' then title ++ " ".data ++ content
      else title ++ ": ".data ++ content
  else title

/-! ## Character-class predicates used by the theorems -/

/-- Plain text in the sense of the sanitizer-idempotence property: no
backslash commands, no braces, no math delimiters, no non-breaking-space
marker. -/
def plainChar (c : Char) : Prop :=
  c ≠ '$' ∧ c ≠ '\\' ∧ c ≠ '\x7b' ∧ c ≠ '\x7d' ∧ c ≠ '~'

/-- Characters that every sanitizer pass copies verbatim and that cannot
collide with the math-placeholder mechanism. -/
def inertChar (c : Char) : Prop :=
  c ≠ '$' ∧ c ≠ '\\' ∧ c ≠ '\x7b' ∧ c ≠ '\x7d' ∧ c ≠ '~' ∧ c ≠ '_' ∧ isSpaceCh c = false

instance (c : Char) : Decidable (plainChar c) := by unfold plainChar; infer_instance

instance (c : Char) : Decidable (inertChar c) := by unfold inertChar; infer_instance

/-- Head character (if any) is not whitespace. -/
def headNotWs : Str → Prop
  | [] => True
  | c :: _ => isSpaceCh c = false

/-- Whitespace-normalized: every whitespace character is a plain space and no
two adjacent characters are both whitespace. -/
def wsNormed : Str → Prop
  | [] => True
  | [c] => isSpaceCh c = false ∨ c = ' '
  | c₁ :: c₂ :: rest =>
    (isSpaceCh c₁ = false ∨ c₁ = ' ') ∧ ¬(isSpaceCh c₁ = true ∧ isSpaceCh c₂ = true) ∧
      wsNormed (c₂ :: rest)

/-- Same element up to the mutable `explanation` annotation. -/
def coreEq (a b : Elem) : Prop :=
  b.etype = a.etype ∧ b.title = a.title ∧ b.content = a.content

/-- Every child index refers to a node in the store. -/
def ValidStore (σ : Store) : Prop :=
  ∀ i c, c ∈ (getN σ i).children → c < σ.length

/-- Level monotonicity: every child's level is strictly greater than its
parent's. -/
def MonoStore (σ : Store) : Prop :=
  ∀ i c, c ∈ (getN σ i).children → (getN σ i).level < (getN σ c).level

def InvStore (σ : Store) : Prop := MonoStore σ ∧ ValidStore σ

/-- The section stack binds each open level to a live node of that level. -/
def StackOK (σ : Store) (st : Stack) : Prop :=
  ∀ e ∈ st, e.2 < σ.length ∧ (getN σ e.2).level = e.1

/-- How a store evolves during the parse: it only grows, existing nodes keep
their level, and a node's kind changes only by the definition merge (to
`section_with_definition`). -/
def Evol (σ σ2 : Store) : Prop :=
  σ.length ≤ σ2.length ∧
    ∀ i, i < σ.length →
      (getN σ2 i).level = (getN σ i).level ∧
        ((getN σ2 i).ntype = (getN σ i).ntype ∨
          (getN σ2 i).ntype = "section_with_definition".data)

/-! ## Sanitizer pass lemmas -/

theorem protectDollarF_id (fuel k : Nat) (s : Str) (h : ∀ c ∈ s, c ≠ '$') :
    protectDollarF fuel k s = (s, []) := by
  induction fuel generalizing s with
  | zero => rfl
  | succ fuel ih =>
    cases s with
    | nil => rfl
    | cons c rest =>
      have hc : c ≠ '$' := h c (List.mem_cons_self c rest)
      simp only [protectDollarF, if_neg hc, ih rest (fun x hx => h x (List.mem_cons_of_mem c hx))]

theorem protectParenF_id (fuel k : Nat) (s : Str) (h : ∀ c ∈ s, c ≠ '\\') :
    protectParenF fuel k s = (s, []) := by
  induction fuel generalizing s with
  | zero => rfl
  | succ fuel ih =>
    cases s with
    | nil => rfl
    | cons c rest =>
      have hc : c ≠ '\\' := h c (List.mem_cons_self c rest)
      simp only [protectParenF, if_neg hc, ih rest (fun x hx => h x (List.mem_cons_of_mem c hx))]

theorem stripCmdArgF_id (fuel : Nat) (s : Str) (h : ∀ c ∈ s, c ≠ '\\') :
    stripCmdArgF fuel s = s := by
  induction fuel generalizing s with
  | zero => rfl
  | succ fuel ih =>
    cases s with
    | nil => rfl
    | cons c rest =>
      have hc : c ≠ '\\' := h c (List.mem_cons_self c rest)
      simp only [stripCmdArgF, if_neg hc, ih rest (fun x hx => h x (List.mem_cons_of_mem c hx))]

theorem stripBareCmdF_id (fuel : Nat) (s : Str) (h : ∀ c ∈ s, c ≠ '\\') :
    stripBareCmdF fuel s = s := by
  induction fuel generalizing s with
  | zero => rfl
  | succ fuel ih =>
    cases s with
    | nil => rfl
    | cons c rest =>
      have hc : c ≠ '\\' := h c (List.mem_cons_self c rest)
      simp only [stripBareCmdF, if_neg hc, ih rest (fun x hx => h x (List.mem_cons_of_mem c hx))]

theorem stripBracesF_id (fuel : Nat) (s : Str) (h : ∀ c ∈ s, c ≠ '\x7b') :
    stripBracesF fuel s = s := by
  induction fuel generalizing s with
  | zero => rfl
  | succ fuel ih =>
    cases s with
    | nil => rfl
    | cons c rest =>
      have hc : c ≠ '\x7b' := h c (List.mem_cons_self c rest)
      simp only [stripBracesF, if_neg hc, ih rest (fun x hx => h x (List.mem_cons_of_mem c hx))]

theorem stripDoubleBackslash_id (s : Str) (h : ∀ c ∈ s, c ≠ '\\') :
    stripDoubleBackslash s = s := by
  induction s with
  | nil => rfl
  | cons c rest ih =>
    cases rest with
    | nil => rfl
    | cons c2 rest2 =>
      have hc : c ≠ '\\' := h c (List.mem_cons_self _ _)
      have : (c = '\\' && c2 = '\\') = false := by
        simp only [Bool.and_eq_false_iff, decide_eq_false_iff_not]
        exact Or.inl hc
      simp only [stripDoubleBackslash, this, Bool.false_eq_true, if_false]
      rw [ih (fun x hx => h x (List.mem_cons_of_mem c hx))]

theorem stripTilde_id (s : Str) (h : ∀ c ∈ s, c ≠ '~') : stripTilde s = s := by
  unfold stripTilde
  conv_rhs => rw [← List.map_id s]
  exact List.map_congr_left (fun c hc => by simp [h c hc])

theorem collapseWs_id_of_noWs (s : Str) (h : ∀ c ∈ s, isSpaceCh c = false) :
    collapseWs s = s := by
  induction s with
  | nil => rfl
  | cons c rest ih =>
    cases rest with
    | nil =>
      have := h c (List.mem_cons_self _ _)
      simp [collapseWs, this]
    | cons c2 rest2 =>
      have hc := h c (List.mem_cons_self _ _)
      simp only [collapseWs, hc, Bool.false_and, Bool.false_eq_true, if_false]
      rw [ih (fun x hx => h x (List.mem_cons_of_mem c hx))]

/-! ## Whitespace-normal-form lemmas -/

theorem and_false_of_not_both {a b : Bool} (h : ¬(a = true ∧ b = true)) :
    (a && b) = false := by
  cases a <;> cases b <;> simp_all

theorem collapseWs_cons (c : Char) (rest : Str) :
    ∃ t, collapseWs (c :: rest) = (if isSpaceCh c then ' ' else c) :: t := by
  induction rest generalizing c with
  | nil =>
    refine ⟨[], ?_⟩
    by_cases h : isSpaceCh c = true <;> simp [collapseWs, h]
  | cons c2 rest2 ih =>
    by_cases h : isSpaceCh c = true ∧ isSpaceCh c2 = true
    · obtain ⟨t, ht⟩ := ih c2
      refine ⟨t, ?_⟩
      simp only [collapseWs, h.1, h.2, Bool.and_self, if_true, ht, h.1, if_true]
    · refine ⟨collapseWs (c2 :: rest2), ?_⟩
      simp only [collapseWs, and_false_of_not_both h, Bool.false_eq_true, if_false]

theorem wsNormed_tail (c : Char) (rest : Str) (h : wsNormed (c :: rest)) : wsNormed rest := by
  cases rest with
  | nil => trivial
  | cons c2 rest2 => exact h.2.2

theorem wsNormed_head (c : Char) (rest : Str) (h : wsNormed (c :: rest)) :
    isSpaceCh c = false ∨ c = ' ' := by
  cases rest with
  | nil => exact h
  | cons c2 rest2 => exact h.1

theorem collapseWs_wsNormed (s : Str) : wsNormed (collapseWs s) := by
  induction s with
  | nil => trivial
  | cons c rest ih =>
    cases rest with
    | nil =>
      by_cases h : isSpaceCh c = true <;> simp [collapseWs, wsNormed, h]
    | cons c2 rest2 =>
      by_cases h : isSpaceCh c = true ∧ isSpaceCh c2 = true
      · simpa only [collapseWs, h.1, h.2, Bool.and_self, if_true] using ih
      · have hb : (isSpaceCh c && isSpaceCh c2) = false := and_false_of_not_both h
        simp only [collapseWs, hb, Bool.false_eq_true, if_false]
        obtain ⟨t, ht⟩ := collapseWs_cons c2 rest2
        rw [ht]
        refine ⟨?_, ?_, ?_⟩
        · by_cases h1 : isSpaceCh c = true <;> simp [h1]
        · rintro ⟨h1, h2⟩
          have h1' : isSpaceCh c = true := by
            by_cases hc : isSpaceCh c = true
            · exact hc
            · simp [hc] at h1
          have hc2f : isSpaceCh c2 = false := by
            cases hval : isSpaceCh c2 with
            | false => rfl
            | true => exact absurd ⟨h1', hval⟩ h
          rw [if_neg (by simp [hc2f])] at h2
          exact absurd h2 (by simp [hc2f])
        · rw [← ht]; exact ih

theorem collapseWs_of_wsNormed (s : Str) (h : wsNormed s) : collapseWs s = s := by
  induction s with
  | nil => rfl
  | cons c rest ih =>
    cases rest with
    | nil =>
      rcases h with h1 | h1
      · simp [collapseWs, h1]
      · subst h1; simp [collapseWs, isSpaceCh]
    | cons c2 rest2 =>
      obtain ⟨h1, h2, h3⟩ := h
      have hb : (isSpaceCh c && isSpaceCh c2) = false := and_false_of_not_both h2
      simp only [collapseWs, hb, Bool.false_eq_true, if_false]
      rw [ih h3]
      rcases h1 with h1 | h1
      · simp [h1]
      · subst h1; simp [isSpaceCh]

theorem dropWhile_wsNormed (s : Str) (h : wsNormed s) :
    wsNormed (s.dropWhile isSpaceCh) := by
  induction s with
  | nil => trivial
  | cons c rest ih =>
    rw [List.dropWhile_cons]
    by_cases hc : isSpaceCh c = true
    · simp only [hc, if_true]
      exact ih (wsNormed_tail c rest h)
    · simp only [hc, Bool.false_eq_true, if_false]
      exact h

theorem rstripWs_cases (c : Char) (rest : Str) :
    rstripWs (c :: rest) = [] ∨ ∃ t, rstripWs (c :: rest) = c :: t := by
  show (match rstripWs rest with
    | [] => if isSpaceCh c then [] else [c]
    | r => c :: r) = [] ∨ ∃ t, (match rstripWs rest with
    | [] => if isSpaceCh c then [] else [c]
    | r => c :: r) = c :: t
  cases rstripWs rest with
  | nil =>
    by_cases hc : isSpaceCh c = true
    · left; simp [hc]
    · right; exact ⟨[], by simp [hc]⟩
  | cons r rs => right; exact ⟨r :: rs, rfl⟩

theorem rstripWs_wsNormed (s : Str) (h : wsNormed s) : wsNormed (rstripWs s) := by
  induction s with
  | nil => trivial
  | cons c rest ih =>
    show wsNormed (match rstripWs rest with
      | [] => if isSpaceCh c then [] else [c]
      | r => c :: r)
    have hrest := ih (wsNormed_tail c rest h)
    cases hr : rstripWs rest with
    | nil =>
      by_cases hc : isSpaceCh c = true
      · simp [hc]; trivial
      · simp only [hc, Bool.false_eq_true, if_false]
        show wsNormed [c]
        exact wsNormed_head c rest h
    | cons r rs =>
      show wsNormed (c :: r :: rs)
      cases rest with
      | nil => simp [rstripWs] at hr
      | cons c2 rest2 =>
        rcases rstripWs_cases c2 rest2 with h0 | ⟨t, ht⟩
        · rw [h0] at hr; exact absurd hr.symm (List.cons_ne_nil r rs)
        · rw [ht] at hr
          obtain ⟨hre, hrs⟩ := List.cons.inj hr
          refine ⟨wsNormed_head c _ h, ?_, ?_⟩
          · subst hre; exact h.2.1
          · rw [← hr]; rw [ht] at hrest; exact hrest

theorem dropWhile_headNotWs (s : Str) : headNotWs (s.dropWhile isSpaceCh) := by
  induction s with
  | nil => trivial
  | cons c rest ih =>
    rw [List.dropWhile_cons]
    cases hc : isSpaceCh c with
    | true => simp only [if_true]; exact ih
    | false =>
      simp only [Bool.false_eq_true, if_false]
      exact hc

theorem headNotWs_rstripWs (s : Str) (h : headNotWs s) : headNotWs (rstripWs s) := by
  cases s with
  | nil => trivial
  | cons c rest =>
    rcases rstripWs_cases c rest with h0 | ⟨t, ht⟩
    · rw [h0]; trivial
    · rw [ht]; exact h

theorem dropWhile_eq_self_of_headNotWs (s : Str) (h : headNotWs s) :
    s.dropWhile isSpaceCh = s := by
  cases s with
  | nil => rfl
  | cons c rest =>
    have h' : isSpaceCh c = false := h
    rw [List.dropWhile_cons]
    simp only [h', Bool.false_eq_true, if_false]

theorem rstripWs_idem (s : Str) : rstripWs (rstripWs s) = rstripWs s := by
  induction s with
  | nil => rfl
  | cons c rest ih =>
    show rstripWs (match rstripWs rest with
      | [] => if isSpaceCh c then [] else [c]
      | r => c :: r) = (match rstripWs rest with
      | [] => if isSpaceCh c then [] else [c]
      | r => c :: r)
    cases hr : rstripWs rest with
    | nil =>
      by_cases hc : isSpaceCh c = true
      · simp [hc, rstripWs]
      · simp only [hc, Bool.false_eq_true, if_false]
        show (match rstripWs [] with
          | [] => if isSpaceCh c then [] else [c]
          | r => c :: r) = [c]
        simp [rstripWs, hc]
    | cons r rs =>
      show rstripWs (c :: r :: rs) = c :: r :: rs
      have ih2 : rstripWs (r :: rs) = r :: rs := by rw [← hr]; exact ih
      show (match rstripWs (r :: rs) with
        | [] => if isSpaceCh c then [] else [c]
        | t => c :: t) = c :: r :: rs
      rw [ih2]

theorem mem_collapseWs (c : Char) (s : Str) (h : c ∈ collapseWs s) : c ∈ s ∨ c = ' ' := by
  induction s with
  | nil => exact absurd h (List.not_mem_nil c)
  | cons a rest ih =>
    cases rest with
    | nil =>
      by_cases ha : isSpaceCh a = true
      · simp only [collapseWs, ha, if_true, List.mem_singleton] at h
        exact Or.inr h
      · simp only [collapseWs, ha, Bool.false_eq_true, if_false, List.mem_singleton] at h
        subst h; exact Or.inl (List.mem_cons_self _ _)
    | cons a2 rest2 =>
      by_cases hb : (isSpaceCh a && isSpaceCh a2) = true
      · simp only [collapseWs, hb, if_true] at h
        rcases ih h with h' | h'
        · exact Or.inl (List.mem_cons_of_mem a h')
        · exact Or.inr h'
      · rw [Bool.not_eq_true] at hb
        simp only [collapseWs, hb, Bool.false_eq_true, if_false, List.mem_cons] at h
        rcases h with h' | h'
        · by_cases ha : isSpaceCh a = true
          · simp only [ha, if_true] at h'
            exact Or.inr h'
          · simp only [ha, Bool.false_eq_true, if_false] at h'
            subst h'; exact Or.inl (List.mem_cons_self _ _)
        · rcases ih h' with h'' | h''
          · exact Or.inl (List.mem_cons_of_mem a h'')
          · exact Or.inr h''

theorem mem_rstripWs (c : Char) (s : Str) (h : c ∈ rstripWs s) : c ∈ s := by
  induction s with
  | nil => exact absurd h (List.not_mem_nil c)
  | cons a rest ih =>
    have hshape : rstripWs (a :: rest) = (match rstripWs rest with
      | [] => if isSpaceCh a then [] else [a]
      | r => a :: r) := rfl
    rw [hshape] at h
    cases hr : rstripWs rest with
    | nil =>
      rw [hr] at h
      by_cases ha : isSpaceCh a = true
      · simp [ha] at h
      · simp only [ha, Bool.false_eq_true, if_false, List.mem_singleton] at h
        subst h; exact List.mem_cons_self _ _
    | cons r rs =>
      rw [hr] at h
      rcases List.mem_cons.mp h with h' | h'
      · subst h'; exact List.mem_cons_self _ _
      · exact List.mem_cons_of_mem a (ih (hr ▸ h'))

theorem mem_dropWhileWs (c : Char) (s : Str) (h : c ∈ s.dropWhile isSpaceCh) : c ∈ s := by
  induction s with
  | nil => exact absurd h (List.not_mem_nil c)
  | cons a rest ih =>
    rw [List.dropWhile_cons] at h
    by_cases ha : isSpaceCh a = true
    · simp only [ha, if_true] at h
      exact List.mem_cons_of_mem a (ih h)
    · simp only [ha, Bool.false_eq_true, if_false] at h
      exact h

theorem mem_stripWs (c : Char) (s : Str) (h : c ∈ stripWs s) : c ∈ s :=
  mem_dropWhileWs c s (mem_rstripWs c _ h)

/-- The combined whitespace normalization `stripWs (collapseWs t)` is a fixed
point of itself. -/
theorem normWs_idem (t : Str) :
    stripWs (collapseWs (stripWs (collapseWs t))) = stripWs (collapseWs t) := by
  set F := stripWs (collapseWs t) with hF
  have hnorm : wsNormed F := by
    rw [hF]
    unfold stripWs
    exact rstripWs_wsNormed _ (dropWhile_wsNormed _ (collapseWs_wsNormed t))
  have hhead : headNotWs F := by
    rw [hF]
    unfold stripWs
    exact headNotWs_rstripWs _ (dropWhile_headNotWs _)
  rw [collapseWs_of_wsNormed F hnorm]
  unfold stripWs
  rw [dropWhile_eq_self_of_headNotWs F hhead]
  rw [hF]
  unfold stripWs
  exact rstripWs_idem _

/-- On plain text the whole sanitizer reduces to whitespace normalization:
every protection and stripping pass is the identity. -/
theorem cleanLatexText_plain (t : Str) (h : ∀ c ∈ t, plainChar c) :
    cleanLatexText t = stripWs (collapseWs t) := by
  have h1 : protectDollarF (t.length + 1) 0 t = (t, []) :=
    protectDollarF_id _ _ _ (fun c hc => (h c hc).1)
  have h2 : protectParenF (t.length + 1) 0 t = (t, []) :=
    protectParenF_id _ _ _ (fun c hc => (h c hc).2.1)
  have h3 : stripCmdArgF (t.length + 1) t = t :=
    stripCmdArgF_id _ _ (fun c hc => (h c hc).2.1)
  have h4 : stripBareCmdF (t.length + 1) t = t :=
    stripBareCmdF_id _ _ (fun c hc => (h c hc).2.1)
  have h5 : stripBracesF (t.length + 1) t = t :=
    stripBracesF_id _ _ (fun c hc => (h c hc).2.2.1)
  have h6 : stripDoubleBackslash t = t :=
    stripDoubleBackslash_id _ (fun c hc => (h c hc).2.1)
  have h7 : stripTilde t = t :=
    stripTilde_id _ (fun c hc => (h c hc).2.2.2.2)
  unfold cleanLatexText
  simp only [h1, List.length_nil, h2, List.nil_append, h3, h4, h5, h6, h7]
  rfl

theorem plainChar_space : plainChar ' ' := by decide

theorem plain_stripCollapse (t : Str) (h : ∀ c ∈ t, plainChar c) :
    ∀ c ∈ stripWs (collapseWs t), plainChar c := by
  intro c hc
  rcases mem_collapseWs c t (mem_stripWs c _ hc) with h' | h'
  · exact h c h'
  · subst h'; exact plainChar_space

/-- C9: sanitizing already-plain text (no markup commands, no braces, no math
delimiters, no non-breaking-space marker) returns it unchanged up to
whitespace normalization, and the sanitizer is idempotent on such text. -/
theorem C9_sanitizer_idempotent_on_plain (t : Str) (h : ∀ c ∈ t, plainChar c) :
    cleanLatexText t = stripWs (collapseWs t) ∧
      cleanLatexText (cleanLatexText t) = cleanLatexText t := by
  refine ⟨cleanLatexText_plain t h, ?_⟩
  rw [cleanLatexText_plain t h,
    cleanLatexText_plain _ (plain_stripCollapse t h), normWs_idem]

/-- Witness for C9 at a concrete plain input. -/
theorem C9_witness :
    (∀ c ∈ "an  already clean sentence.".data, plainChar c) ∧
      (cleanLatexText "an  already clean sentence.".data =
          stripWs (collapseWs "an  already clean sentence.".data) ∧
        cleanLatexText (cleanLatexText "an  already clean sentence.".data) =
          cleanLatexText "an  already clean sentence.".data) :=
  ⟨by decide, C9_sanitizer_idempotent_on_plain _ (by decide)⟩

/-! ## Protected-span preservation (C5) -/

theorem takeWhile_append_stop (p : Char → Bool) (a : Str) (b : Char) (t : Str)
    (ha : ∀ c ∈ a, p c = true) (hb : p b = false) :
    (a ++ b :: t).takeWhile p = a := by
  induction a with
  | nil => simp [List.takeWhile_cons, hb]
  | cons x xs ih =>
    have hx := ha x (List.mem_cons_self _ _)
    simp only [List.cons_append, List.takeWhile_cons, hx, if_true, List.cons.injEq, true_and]
    exact ih (fun c hc => ha c (List.mem_cons_of_mem x hc))

theorem drop_append_cons (a : Str) (b : Char) (t : Str) :
    (a ++ b :: t).drop (a.length + 1) = t := by
  rw [List.append_cons]
  have h : (a ++ [b]).length = a.length + 1 := by simp
  rw [← h, List.drop_left]

/-- The `$...$` protection pass on a string containing exactly one protectable
span: the span is recorded and replaced by the placeholder. -/
theorem protectDollarF_span (u m v : Str) (k : Nat)
    (hu : ∀ c ∈ u, c ≠ '$') (hv : ∀ c ∈ v, c ≠ '$')
    (hm0 : m ≠ []) (hm : ∀ c ∈ m, c ≠ '$') :
    ∀ fuel, u.length + 1 ≤ fuel →
      protectDollarF fuel k (u ++ '$' :: m ++ '$' :: v) =
        (u ++ mathPlaceholder k ++ v, ['$' :: m ++ ['$']]) := by
  induction u with
  | nil =>
    intro fuel hfuel
    obtain ⟨f, rfl⟩ : ∃ f, fuel = f + 1 := ⟨fuel - 1, by omega⟩
    simp only [List.nil_append]
    have htw : (m ++ '$' :: v).takeWhile (fun c => decide (c ≠ '$')) = m :=
      takeWhile_append_stop _ m '$' v (fun c hc => by simp [hm c hc]) (by simp)
    have hdrop1 : (m ++ '$' :: v).drop m.length = '$' :: v := List.drop_left m ('$' :: v)
    have hdrop2 : (m ++ '$' :: v).drop (m.length + 1) = v := drop_append_cons m '$' v
    have hids : protectDollarF f (k + 1) v = (v, []) :=
      protectDollarF_id f (k + 1) v hv
    show protectDollarF (f + 1) k ('$' :: (m ++ '$' :: v)) = _
    simp only [protectDollarF, if_pos rfl, htw, hdrop1, hdrop2, hids, hm0,
      ne_eq, not_false_iff, List.cons_ne_nil, and_self, if_true]
    simp [hm0]
  | cons x xs ih =>
    intro fuel hfuel
    obtain ⟨f, rfl⟩ : ∃ f, fuel = f + 1 := ⟨fuel - 1, by omega⟩
    have hx : x ≠ '$' := hu x (List.mem_cons_self _ _)
    have hxs : ∀ c ∈ xs, c ≠ '$' := fun c hc => hu c (List.mem_cons_of_mem x hc)
    have hih := ih hxs f (by simp at hfuel; omega)
    show protectDollarF (f + 1) k (x :: (xs ++ '$' :: m ++ '$' :: v)) = _
    simp only [protectDollarF, if_neg hx, hih, List.cons_append]

/-- `str.replace` is the identity on text whose characters all differ from the
pattern head. -/
theorem replaceAllSubF_id (p0 : Char) (pt repl : Str) :
    ∀ fuel (v : Str), (∀ c ∈ v, c ≠ p0) →
      replaceAllSubF (p0 :: pt) repl fuel v = v := by
  intro fuel
  induction fuel with
  | zero => intro v _; rfl
  | succ fuel ih =>
    intro v hv
    cases v with
    | nil => rfl
    | cons c rest =>
      have hc : c ≠ p0 := hv c (List.mem_cons_self _ _)
      have hpre : (p0 :: pt).isPrefixOf (c :: rest) = false := by
        simp [List.isPrefixOf, Ne.symm hc]
      simp only [replaceAllSubF, hpre, Bool.and_false, Bool.false_eq_true, if_false]
      rw [ih rest (fun a ha => hv a (List.mem_cons_of_mem c ha))]

theorem isPrefixOf_append_self (p t : Str) : p.isPrefixOf (p ++ t) = true := by
  induction p with
  | nil => simp [List.isPrefixOf]
  | cons a as ih => simp [List.isPrefixOf, ih]

/-- Replacing the placeholder in `u ++ placeholder ++ v` when `u` and `v` are
free of underscores substitutes exactly the one occurrence. -/
theorem replaceAllSubF_placeholder (repl u v : Str)
    (hu : ∀ c ∈ u, c ≠ '_') (hv : ∀ c ∈ v, c ≠ '_') :
    ∀ fuel, u.length + 1 ≤ fuel →
      replaceAllSubF (mathPlaceholder 0) repl fuel (u ++ mathPlaceholder 0 ++ v) =
        u ++ repl ++ v := by
  have hph : mathPlaceholder 0 = '_' :: "_MATH_PLACEHOLDER_0__".data := by decide
  induction u with
  | nil =>
    intro fuel hfuel
    obtain ⟨f, rfl⟩ : ∃ f, fuel = f + 1 := ⟨fuel - 1, by omega⟩
    simp only [List.nil_append]
    have hcons : mathPlaceholder 0 ++ v = '_' :: ("_MATH_PLACEHOLDER_0__".data ++ v) := by
      rw [hph]; rfl
    rw [hcons]
    have hpre : (mathPlaceholder 0).isPrefixOf ('_' :: ("_MATH_PLACEHOLDER_0__".data ++ v)) = true := by
      rw [← hcons]
      exact isPrefixOf_append_self _ _
    have hdrop : ('_' :: ("_MATH_PLACEHOLDER_0__".data ++ v)).drop (mathPlaceholder 0).length = v := by
      rw [← hcons, List.drop_left]
    simp only [replaceAllSubF]
    split
    · rw [hdrop, hph, replaceAllSubF_id '_' _ repl f v hv]
    · next h =>
        rw [hpre, Bool.and_true] at h
        exact absurd (by decide) h
  | cons x xs ih =>
    intro fuel hfuel
    obtain ⟨f, rfl⟩ : ∃ f, fuel = f + 1 := ⟨fuel - 1, by omega⟩
    have hx : x ≠ '_' := hu x (List.mem_cons_self _ _)
    have hpre : (mathPlaceholder 0).isPrefixOf (x :: (xs ++ mathPlaceholder 0 ++ v)) = false := by
      rw [hph]
      simp [List.isPrefixOf, Ne.symm hx]
    show replaceAllSubF (mathPlaceholder 0) repl (f + 1) (x :: (xs ++ mathPlaceholder 0 ++ v)) = _
    simp only [replaceAllSubF, hpre, Bool.and_false, Bool.false_eq_true, if_false]
    rw [ih (fun c hc => hu c (List.mem_cons_of_mem x hc)) f (by simp at hfuel; omega)]
    rfl

theorem getLast?_mem (s : Str) (c : Char) (h : s.getLast? = some c) : c ∈ s := by
  induction s with
  | nil => simp at h
  | cons a rest ih =>
    cases rest with
    | nil =>
      simp only [List.getLast?_singleton, Option.some.injEq] at h
      subst h; exact List.mem_cons_self _ _
    | cons b rest2 =>
      rw [List.getLast?_cons_cons] at h
      exact List.mem_cons_of_mem a (ih h)

theorem rstripWs_eq_self (s : Str)
    (h : ∀ c, s.getLast? = some c → isSpaceCh c = false) : rstripWs s = s := by
  induction s with
  | nil => rfl
  | cons c rest ih =>
    show (match rstripWs rest with
      | [] => if isSpaceCh c then [] else [c]
      | r => c :: r) = c :: rest
    cases rest with
    | nil =>
      have hc := h c (by simp)
      simp [rstripWs, hc]
    | cons c2 rest2 =>
      have hrec : rstripWs (c2 :: rest2) = c2 :: rest2 :=
        ih (fun x hx => h x (by rw [List.getLast?_cons_cons]; exact hx))
      rw [hrec]

theorem stripWs_eq_self (s : Str) (hh : headNotWs s)
    (hl : ∀ c, s.getLast? = some c → isSpaceCh c = false) : stripWs s = s := by
  unfold stripWs
  rw [dropWhile_eq_self_of_headNotWs s hh]
  exact rstripWs_eq_self s hl

/-- C5 (amended): a `$...$` span with a nonempty `$`-free body, embedded in
surrounding text made of characters that no stripping pass touches and that
cannot collide with the placeholder mechanism, is returned byte-for-byte
unchanged by the sanitizer (the whole string, span included, is preserved). -/
theorem C5_dollar_span_preserved (u m v : Str)
    (hu : ∀ c ∈ u, inertChar c) (hv : ∀ c ∈ v, inertChar c)
    (hm0 : m ≠ []) (hm : ∀ c ∈ m, c ≠ '$') :
    cleanLatexText (u ++ '$' :: m ++ '$' :: v) = u ++ '$' :: m ++ '$' :: v := by
  have hlen : u.length + 1 ≤ (u ++ '$' :: m ++ '$' :: v).length + 1 := by
    simp only [List.length_append, List.length_cons]
    omega
  have h1 : protectDollarF ((u ++ '$' :: m ++ '$' :: v).length + 1) 0
      (u ++ '$' :: m ++ '$' :: v) = (u ++ mathPlaceholder 0 ++ v, ['$' :: m ++ ['$']]) :=
    protectDollarF_span u m v 0 (fun c hc => (hu c hc).1) (fun c hc => (hv c hc).1)
      hm0 hm _ hlen
  have hphchars : ∀ c ∈ mathPlaceholder 0,
      c ≠ '\\' ∧ c ≠ '\x7b' ∧ c ≠ '~' ∧ isSpaceCh c = false := by decide
  have ht1 : ∀ c ∈ u ++ mathPlaceholder 0 ++ v,
      c ≠ '\\' ∧ c ≠ '\x7b' ∧ c ≠ '~' ∧ isSpaceCh c = false := by
    intro c hc
    simp only [List.append_assoc, List.mem_append] at hc
    rcases hc with hc | hc | hc
    · obtain ⟨_, h2, h3, _, h5, _, h7⟩ := hu c hc
      exact ⟨h2, h3, h5, h7⟩
    · exact hphchars c hc
    · obtain ⟨_, h2, h3, _, h5, _, h7⟩ := hv c hc
      exact ⟨h2, h3, h5, h7⟩
  have h2 := protectParenF_id ((u ++ mathPlaceholder 0 ++ v).length + 1)
    (List.length ['$' :: m ++ ['$']]) (u ++ mathPlaceholder 0 ++ v)
    (fun c hc => (ht1 c hc).1)
  have h3 := stripCmdArgF_id ((u ++ mathPlaceholder 0 ++ v).length + 1)
    (u ++ mathPlaceholder 0 ++ v) (fun c hc => (ht1 c hc).1)
  have h4 := stripBareCmdF_id ((u ++ mathPlaceholder 0 ++ v).length + 1)
    (u ++ mathPlaceholder 0 ++ v) (fun c hc => (ht1 c hc).1)
  have h5 := stripBracesF_id ((u ++ mathPlaceholder 0 ++ v).length + 1)
    (u ++ mathPlaceholder 0 ++ v) (fun c hc => (ht1 c hc).2.1)
  have h6 := stripDoubleBackslash_id (u ++ mathPlaceholder 0 ++ v)
    (fun c hc => (ht1 c hc).1)
  have h7 := stripTilde_id (u ++ mathPlaceholder 0 ++ v) (fun c hc => (ht1 c hc).2.2.1)
  have h8 := collapseWs_id_of_noWs (u ++ mathPlaceholder 0 ++ v)
    (fun c hc => (ht1 c hc).2.2.2)
  have h9 : replaceAllSubF (mathPlaceholder 0) ('$' :: m ++ ['$'])
      ((u ++ mathPlaceholder 0 ++ v).length + 1) (u ++ mathPlaceholder 0 ++ v) =
      u ++ ('$' :: m ++ ['$']) ++ v :=
    replaceAllSubF_placeholder ('$' :: m ++ ['$']) u v
      (fun c hc => (hu c hc).2.2.2.2.2.1) (fun c hc => (hv c hc).2.2.2.2.2.1) _
      (by simp only [List.length_append, List.length_cons]; omega)
  have hfinal : u ++ ('$' :: m ++ ['$']) ++ v = u ++ '$' :: m ++ '$' :: v := by
    simp [List.append_assoc]
  have h10 : stripWs (u ++ ('$' :: m ++ ['$']) ++ v) = u ++ ('$' :: m ++ ['$']) ++ v := by
    apply stripWs_eq_self
    · cases u with
      | nil =>
        show isSpaceCh '$' = false
        decide
      | cons x xs =>
        show isSpaceCh x = false
        exact (hu x (List.mem_cons_self _ _)).2.2.2.2.2.2
    · intro c hc
      cases v with
      | nil =>
        rw [List.append_nil] at hc
        have hspan : u ++ ('$' :: m ++ ['$']) = (u ++ '$' :: m) ++ ['$'] := by simp
        rw [hspan, List.getLast?_concat] at hc
        cases hc
        decide
      | cons y ys =>
        rw [List.getLast?_append_of_ne_nil _ (List.cons_ne_nil y ys)] at hc
        exact (hv c (getLast?_mem _ _ hc)).2.2.2.2.2.2
  unfold cleanLatexText
  simp only [h1, h2, h3, h4, h5, h6, h7, h8]
  show stripWs (restoreMath (u ++ mathPlaceholder 0 ++ v) 0 (['$' :: m ++ ['$']] ++ [])) =
    u ++ '$' :: m ++ '$' :: v
  rw [List.append_nil]
  show stripWs (restoreMath (replaceAllSub (mathPlaceholder 0) ('$' :: m ++ ['$'])
    (u ++ mathPlaceholder 0 ++ v)) 1 []) = u ++ '$' :: m ++ '$' :: v
  unfold restoreMath replaceAllSub
  rw [h9, h10, hfinal]

/-- Witness for C5 at a concrete input: markup-free prose around a dollar
span is fully preserved. -/
theorem C5_witness :
    cleanLatexText ("ab:".data ++ '$' :: "x+1".data ++ '$' :: ":cd".data) =
      "ab:".data ++ '$' :: "x+1".data ++ '$' :: ":cd".data :=
  C5_dollar_span_preserved _ _ _ (by decide) (by decide) (by decide) (by decide)

/-- C5 counterexample: an inline `\(...\)` math span whose inner text contains
a right parenthesis is not protected, and the command-stripping pass deletes
the `\alpha` inside it, so the sanitized output does not contain the span. -/
theorem C5_counterexample :
    cleanLatexText "\\(\\alpha, f(x)\\)".data = "\\(, f(x)\\)".data ∧
      containsSub "\\(\\alpha, f(x)\\)".data
        (cleanLatexText "\\(\\alpha, f(x)\\)".data) = false :=
  ⟨by decide, by decide⟩

/-! ## Sectioning-command coverage (C1) -/

theorem subPrefixStr_length (n : Nat) : (subPrefixStr n).length = 3 * n := by
  induction n with
  | zero => rfl
  | succ n ih => simp [subPrefixStr, List.length_append, ih]; omega

theorem trySection_shape (rest cmd arg : Str) (k : Nat)
    (h : trySection rest = some (cmd, arg, k)) :
    cmd = subPrefixStr (countSubs rest) ++ "section".data := by
  simp only [trySection] at h
  split at h
  · split at h
    · split at h
      · obtain ⟨h1, _, _⟩ := Prod.mk.injEq .. ▸ Option.some.injEq .. ▸ h
        exact h1.symm
      · exact absurd h (by simp)
    · exact absurd h (by simp)
  · exact absurd h (by simp)

theorem sectionScanF_shape (fuel : Nat) :
    ∀ (pos : Nat) (s : Str) (m : SecMatch), m ∈ sectionScanF fuel pos s →
      ∃ n, m.cmd = subPrefixStr n ++ "section".data := by
  induction fuel with
  | zero => intro pos s m h; simp [sectionScanF] at h
  | succ fuel ih =>
    intro pos s m h
    cases s with
    | nil => simp [sectionScanF] at h
    | cons c rest =>
      simp only [sectionScanF] at h
      by_cases hc : c = '\\'
      · rw [if_pos hc] at h
        cases htry : trySection rest with
        | none =>
          rw [htry] at h
          exact ih _ _ m h
        | some t =>
          obtain ⟨cmd, arg, k⟩ := t
          rw [htry] at h
          rcases List.mem_cons.mp h with h' | h'
          · subst h'
            exact ⟨countSubs rest, trySection_shape rest cmd arg k htry⟩
          · exact ih _ _ m h'
      · rw [if_neg hc] at h
        exact ih _ _ m h

theorem subPrefix_section_length (n : Nat) :
    (subPrefixStr n ++ "section".data).length = 3 * n + 7 := by
  rw [List.length_append, subPrefixStr_length]
  have h7 : ("section".data : Str).length = 7 := by decide
  rw [h7]

theorem sectionLevelOf_subPrefix (n : Nat) :
    sectionLevelOf (subPrefixStr n ++ "section".data) =
      if n = 1 then 3 else if n = 2 then 4 else 2 := by
  rcases n with _ | _ | _ | k
  · decide
  · decide
  · decide
  · 
    have hall : ∀ e ∈ sectionLevels,
        (e.1 == subPrefixStr (k + 3) ++ "section".data) = false := by
      intro e he
      rw [beq_eq_false_iff_ne]
      intro hEq
      have hl := congrArg List.length hEq
      rw [subPrefix_section_length] at hl
      have hle : e.1.length ≤ 13 := by fin_cases he <;> decide
      omega
    have hnone : sectionLevels.find?
        (fun e => e.1 == subPrefixStr (k + 3) ++ "section".data) = none :=
      List.find?_eq_none.mpr (fun x hx => by rw [hall x hx]; simp)
    rw [sectionLevelOf, hnone]
    rw [if_neg (by omega), if_neg (by omega)]
    rfl

theorem subPrefix_section_ne (n : Nat) (w : Str) (hw : w.length ≠ 3 * n + 7) :
    subPrefixStr n ++ "section".data ≠ w := by
  intro hEq
  have hl := congrArg List.length hEq
  rw [subPrefix_section_length] at hl
  exact hw hl.symm

theorem subPrefix3_section_ne (k : Nat) (w : Str) (hw : w.length ≤ 13) :
    subPrefixStr (k + 3) ++ "section".data ≠ w :=
  subPrefix_section_ne (k + 3) w (by omega)

/-- C1 (amended): the structural segmenter's section pattern matches only
commands of the form `(sub)*section` with a nonempty brace argument; the
levels actually assigned are section = 2, subsection = 3, subsubsection = 4,
and 2 (the lookup default) for deeper `sub` repetitions.  The commands
`part`, `chapter`, `paragraph`, `subparagraph` of the fixed seven-level
mapping are never matched, so no section node is ever created for them. -/
theorem C1_section_matches_shape (body : Str) (m : SecMatch)
    (h : m ∈ sectionScan body) :
    (∃ n, m.cmd = subPrefixStr n ++ "section".data) ∧
      sectionLevelOf m.cmd =
        (if m.cmd = "subsection".data then 3
         else if m.cmd = "subsubsection".data then 4 else 2) ∧
      m.cmd ≠ "part".data ∧ m.cmd ≠ "chapter".data ∧
      m.cmd ≠ "paragraph".data ∧ m.cmd ≠ "subparagraph".data := by
  obtain ⟨n, hn⟩ := sectionScanF_shape _ _ _ m h
  rw [hn]
  refine ⟨⟨n, rfl⟩, ?_, ?_, ?_, ?_, ?_⟩
  · rw [sectionLevelOf_subPrefix]
    rcases n with _ | _ | _ | k
    · decide
    · decide
    · decide
    · have h1 := subPrefix3_section_ne k "subsection".data (by decide)
      have h2 := subPrefix3_section_ne k "subsubsection".data (by decide)
      rw [if_neg (by omega), if_neg (by omega), if_neg h1, if_neg h2]
  · rcases n with _ | _ | _ | k
    · decide
    · decide
    · decide
    · exact subPrefix3_section_ne k "part".data (by decide)
  · rcases n with _ | _ | _ | k
    · decide
    · decide
    · decide
    · exact subPrefix3_section_ne k "chapter".data (by decide)
  · rcases n with _ | _ | _ | k
    · decide
    · decide
    · decide
    · exact subPrefix3_section_ne k "paragraph".data (by decide)
  · rcases n with _ | _ | _ | k
    · decide
    · decide
    · decide
    · exact subPrefix3_section_ne k "subparagraph".data (by decide)

/-- Witness for C1 at a concrete body containing a subsection command. -/
theorem C1_witness :
    (⟨"subsection".data, "A".data, 0, 14⟩ : SecMatch) ∈
        sectionScan "\\subsection\x7bA\x7d".data ∧
      ((∃ n, ("subsection".data : Str) = subPrefixStr n ++ "section".data) ∧
        sectionLevelOf "subsection".data =
          (if ("subsection".data : Str) = "subsection".data then 3
           else if ("subsection".data : Str) = "subsubsection".data then 4 else 2) ∧
        ("subsection".data : Str) ≠ "part".data ∧
        ("subsection".data : Str) ≠ "chapter".data ∧
        ("subsection".data : Str) ≠ "paragraph".data ∧
        ("subsection".data : Str) ≠ "subparagraph".data) :=
  ⟨by decide, C1_section_matches_shape "\\subsection\x7bA\x7d".data
    ⟨"subsection".data, "A".data, 0, 14⟩ (by decide)⟩

/-- C1 counterexample: `\part{Intro}` is one of the seven sectioning commands
(fixed level 0), yet the segmenter finds no match in it and the parse creates
no section node at all — the store holds only the untouched root. -/
theorem C1_counterexample :
    sectionScan "\\part\x7bIntro\x7d".data = [] ∧
      parse "\\part\x7bIntro\x7d".data =
        [⟨"LaTeX Document".data, [], "document".data, 0, []⟩] ∧
      sectionLevels.find? (fun e => e.1 == "part".data) = some ("part".data, 0) :=
  ⟨by decide, by decide, by decide⟩

/-! ## Block-extractor node kinds (C2) -/

/-- C2 (amended): in the regex pipeline actually used, every node the block
extractor appends to a section has kind `equation`,
`equation_with_explanation`, `theorem`, `paragraph` or `explanation` — never
`itemize`, `enumerate` or `item`.  List environments inside a section span
therefore produce no list-container or item nodes (the list-handling code
exists only on the unused pylatexenc path). -/
theorem C2_no_list_nodes (secLevel : Nat) (content : Str) (nd : NodeData)
    (h : nd ∈ structuredNodes secLevel content) :
    nd.ntype = "equation".data ∨ nd.ntype = "equation_with_explanation".data ∨
      nd.ntype = "theorem".data ∨ nd.ntype = "paragraph".data ∨
      nd.ntype = "explanation".data := by
  obtain ⟨e, he, rfl⟩ := List.mem_map.mp h
  obtain ⟨et, co, st, sp, ti, ex⟩ := e
  cases et with
  | eqn =>
    cases ex with
    | none => simp [elementNode]
    | some exs =>
      by_cases hex : exs = []
      · subst hex; simp [elementNode]
      · simp [elementNode, hex]
  | thm => simp [elementNode]
  | par => simp [elementNode]
  | expl => simp [elementNode]

/-- Witness for C2 at a concrete span containing one lemma environment. -/
theorem C2_witness :
    (⟨"Lemma".data, "L".data, "theorem".data, 3, []⟩ : NodeData) ∈
        structuredNodes 2 "\\begin\x7blemma\x7dL\\end\x7blemma\x7d".data ∧
      (("theorem".data : Str) = "equation".data ∨
        ("theorem".data : Str) = "equation_with_explanation".data ∨
        ("theorem".data : Str) = "theorem".data ∨
        ("theorem".data : Str) = "paragraph".data ∨
        ("theorem".data : Str) = "explanation".data) :=
  ⟨by decide, C2_no_list_nodes 2 "\\begin\x7blemma\x7dL\\end\x7blemma\x7d".data
    ⟨"Lemma".data, "L".data, "theorem".data, 3, []⟩ (by decide)⟩

/-- C2 counterexample: a section whose span is a well-formed itemize
environment ends with no children at all — no list-container node with an
`item` child is ever appended; the list text is merely folded (sanitized)
into the section's own content. -/
theorem C2_counterexample :
    parse "\\section\x7bS\x7d\\begin\x7bitemize\x7d\\item apple\\end\x7bitemize\x7d".data =
      [⟨"S".data, [], "document".data, 0, [1]⟩,
       ⟨"S".data, "itemize appleitemize".data, "section".data, 2, []⟩] := by decide

/-! ## Provenance and survival of elements through the enhanced walk -/

theorem coreEq_refl (a : Elem) : coreEq a a := ⟨rfl, rfl, rfl⟩

theorem coreEq_expl (a : Elem) (o : Option Str) : coreEq a { a with expl := o } :=
  ⟨rfl, rfl, rfl⟩

theorem coreEq_trans {a b c : Elem} (h1 : coreEq a b) (h2 : coreEq b c) : coreEq a c :=
  ⟨h2.1.trans h1.1, h2.2.1.trans h1.2.1, h2.2.2.trans h1.2.2⟩

/-- `attachBefore` only rewrites the head's explanation: both directions of
core-preserving correspondence hold. -/
theorem attachBefore_forward (acc : List Elem) (tbc : Str) (a : Elem) (h : a ∈ acc) :
    ∃ b ∈ attachBefore acc tbc, coreEq a b := by
  cases acc with
  | nil => exact absurd h (List.not_mem_nil a)
  | cons prev acc2 =>
    show ∃ b ∈ (if prev.etype = ElemType.eqn then
      match prev.expl with
      | none => { prev with expl := some tbc } :: acc2
      | some ex => { prev with expl := some (ex ++ ' ' :: tbc) } :: acc2
      else prev :: acc2), coreEq a b
    rcases List.mem_cons.mp h with h' | h'
    · subst h'
      by_cases hp : a.etype = ElemType.eqn
      · rw [if_pos hp]
        cases a.expl with
        | none => exact ⟨_, List.mem_cons_self _ _, coreEq_expl a _⟩
        | some ex => exact ⟨_, List.mem_cons_self _ _, coreEq_expl a _⟩
      · rw [if_neg hp]
        exact ⟨a, List.mem_cons_self _ _, coreEq_refl a⟩
    · by_cases hp : prev.etype = ElemType.eqn
      · rw [if_pos hp]
        cases prev.expl with
        | none => exact ⟨a, List.mem_cons_of_mem _ h', coreEq_refl a⟩
        | some ex => exact ⟨a, List.mem_cons_of_mem _ h', coreEq_refl a⟩
      · rw [if_neg hp]
        exact ⟨a, List.mem_cons_of_mem _ h', coreEq_refl a⟩

theorem attachBefore_backward (acc : List Elem) (tbc : Str) (b : Elem)
    (h : b ∈ attachBefore acc tbc) : ∃ a ∈ acc, coreEq a b := by
  cases acc with
  | nil => simp [attachBefore] at h
  | cons prev acc2 =>
    rw [show attachBefore (prev :: acc2) tbc = (if prev.etype = ElemType.eqn then
      match prev.expl with
      | none => { prev with expl := some tbc } :: acc2
      | some ex => { prev with expl := some (ex ++ ' ' :: tbc) } :: acc2
      else prev :: acc2) from rfl] at h
    by_cases hp : prev.etype = ElemType.eqn
    · rw [if_pos hp] at h
      cases hexp : prev.expl with
      | none =>
        rw [hexp] at h
        rcases List.mem_cons.mp h with h' | h'
        · subst h'
          exact ⟨prev, List.mem_cons_self _ _, coreEq_expl prev _⟩
        · exact ⟨b, List.mem_cons_of_mem _ h', coreEq_refl b⟩
      | some ex =>
        rw [hexp] at h
        rcases List.mem_cons.mp h with h' | h'
        · subst h'
          exact ⟨prev, List.mem_cons_self _ _, coreEq_expl prev _⟩
        · exact ⟨b, List.mem_cons_of_mem _ h', coreEq_refl b⟩
    · rw [if_neg hp] at h
      rcases List.mem_cons.mp h with h' | h'
      · subst h'
        exact ⟨b, List.mem_cons_self _ _, coreEq_refl b⟩
      · exact ⟨b, List.mem_cons_of_mem _ h', coreEq_refl b⟩

theorem walkStep1_backward (content : Str) (lastEnd : Nat) (x : Elem) (acc : List Elem)
    (b : Elem) (h : b ∈ walkStep1 content lastEnd x acc) : ∃ a ∈ acc, coreEq a b := by
  simp only [walkStep1] at h
  split at h
  · split at h
    · split at h
      · exact attachBefore_backward _ _ b h
      · exact ⟨b, h, coreEq_refl b⟩
    · exact ⟨b, h, coreEq_refl b⟩
  · exact ⟨b, h, coreEq_refl b⟩

theorem walkStep1_forward (content : Str) (lastEnd : Nat) (x : Elem) (acc : List Elem)
    (a : Elem) (h : a ∈ acc) : ∃ b ∈ walkStep1 content lastEnd x acc, coreEq a b := by
  simp only [walkStep1]
  split
  · split
    · split
      · exact attachBefore_forward _ _ a h
      · exact ⟨a, h, coreEq_refl a⟩
    · exact ⟨a, h, coreEq_refl a⟩
  · exact ⟨a, h, coreEq_refl a⟩

theorem walkStep3_backward (content : Str) (x : Elem) (ns : Nat) (acc2 : List Elem)
    (b : Elem) (h : b ∈ walkStep3 content x ns acc2) :
    (b.etype = ElemType.expl ∧ b.title = "Explanation".data) ∨ ∃ a ∈ acc2, coreEq a b := by
  simp only [walkStep3] at h
  split at h
  · split at h
    · split at h
      · split at h
        · rcases List.mem_cons.mp h with h' | h'
          · subst h'
            exact Or.inr ⟨_, List.mem_cons_self _ _, coreEq_expl _ _⟩
          · exact Or.inr ⟨b, List.mem_cons_of_mem _ h', coreEq_refl b⟩
        · exact Or.inr ⟨b, h, coreEq_refl b⟩
      · rcases List.mem_cons.mp h with h' | h'
        · subst h'
          exact Or.inl ⟨rfl, rfl⟩
        · exact Or.inr ⟨b, h', coreEq_refl b⟩
    · exact Or.inr ⟨b, h, coreEq_refl b⟩
  · exact Or.inr ⟨b, h, coreEq_refl b⟩

theorem walkStep3_forward (content : Str) (x : Elem) (ns : Nat) (acc2 : List Elem)
    (a : Elem) (h : a ∈ acc2) : ∃ b ∈ walkStep3 content x ns acc2, coreEq a b := by
  simp only [walkStep3]
  split
  · split
    · split
      · split
        · next cur acc4 =>
            rcases List.mem_cons.mp h with h' | h'
            · subst h'
              exact ⟨_, List.mem_cons_self _ _, coreEq_expl _ _⟩
            · exact ⟨a, List.mem_cons_of_mem _ h', coreEq_refl a⟩
        · exact ⟨a, h, coreEq_refl a⟩
      · exact ⟨a, List.mem_cons_of_mem _ h, coreEq_refl a⟩
    · exact ⟨a, h, coreEq_refl a⟩
  · exact ⟨a, h, coreEq_refl a⟩

/-- Backward provenance of the walk: everything it emits is either a new
explanation element or core-equal to an element of the input list or initial
accumulator. -/
theorem walkElems_backward (content : Str) :
    ∀ (l : List Elem) (lastEnd : Nat) (acc : List Elem) (e : Elem),
      e ∈ walkElems content l lastEnd acc →
      (e.etype = ElemType.expl ∧ e.title = "Explanation".data) ∨
        (∃ a ∈ acc, coreEq a e) ∨ (∃ a ∈ l, coreEq a e) := by
  intro l
  induction l with
  | nil =>
    intro lastEnd acc e he
    simp only [walkElems, List.mem_reverse] at he
    exact Or.inr (Or.inl ⟨e, he, coreEq_refl e⟩)
  | cons x rest ih =>
    intro lastEnd acc e he
    simp only [walkElems] at he
    rcases ih _ _ e he with h | h | h
    · exact Or.inl h
    · obtain ⟨a3, ha3, hc3⟩ := h
      rcases walkStep3_backward _ _ _ _ a3 ha3 with h2 | ⟨b, hb, hcb⟩
      · exact Or.inl ⟨hc3.1.trans h2.1, hc3.2.1.trans h2.2⟩
      · rcases List.mem_cons.mp hb with h3 | h3
        · subst h3
          exact Or.inr (Or.inr ⟨b, List.mem_cons_self _ _, coreEq_trans hcb hc3⟩)
        · obtain ⟨a, ha, hca⟩ := walkStep1_backward _ _ _ _ b h3
          exact Or.inr (Or.inl ⟨a, ha, coreEq_trans (coreEq_trans hca hcb) hc3⟩)
    · obtain ⟨a, ha, hca⟩ := h
      exact Or.inr (Or.inr ⟨a, List.mem_cons_of_mem _ ha, hca⟩)

/-- Forward survival through the walk: every element of the accumulator has a
core-equal image in the output. -/
theorem walkElems_acc_forward (content : Str) :
    ∀ (l : List Elem) (lastEnd : Nat) (acc : List Elem) (a : Elem), a ∈ acc →
      ∃ e ∈ walkElems content l lastEnd acc, coreEq a e := by
  intro l
  induction l with
  | nil =>
    intro lastEnd acc a ha
    refine ⟨a, ?_, coreEq_refl a⟩
    simp only [walkElems, List.mem_reverse]
    exact ha
  | cons x rest ih =>
    intro lastEnd acc a ha
    obtain ⟨b1, hb1, hc1⟩ := walkStep1_forward content lastEnd x acc a ha
    cases rest with
    | nil =>
      obtain ⟨b3, hb3, hc3⟩ := walkStep3_forward content x content.length
        (x :: walkStep1 content lastEnd x acc) b1 (List.mem_cons_of_mem x hb1)
      obtain ⟨e, he, hce⟩ := ih content.length _ b3 hb3
      exact ⟨e, by simpa only [walkElems] using he, coreEq_trans (coreEq_trans hc1 hc3) hce⟩
    | cons y ys =>
      obtain ⟨b3, hb3, hc3⟩ := walkStep3_forward content x y.start
        (x :: walkStep1 content lastEnd x acc) b1 (List.mem_cons_of_mem x hb1)
      obtain ⟨e, he, hce⟩ := ih y.start _ b3 hb3
      exact ⟨e, by simpa only [walkElems] using he, coreEq_trans (coreEq_trans hc1 hc3) hce⟩

/-- Forward survival of every input element. -/
theorem walkElems_forward (content : Str) :
    ∀ (l : List Elem) (lastEnd : Nat) (acc : List Elem) (a : Elem), a ∈ l →
      ∃ e ∈ walkElems content l lastEnd acc, coreEq a e := by
  intro l
  induction l with
  | nil =>
    intro lastEnd acc a ha
    exact absurd ha (List.not_mem_nil a)
  | cons x rest ih =>
    intro lastEnd acc a ha
    rcases List.mem_cons.mp ha with h | h
    · subst h
      cases rest with
      | nil =>
        obtain ⟨b3, hb3, hc3⟩ := walkStep3_forward content a content.length
          (a :: walkStep1 content lastEnd a acc) a (List.mem_cons_self _ _)
        obtain ⟨e, he, hce⟩ := walkElems_acc_forward content [] content.length _ b3 hb3
        exact ⟨e, by simpa only [walkElems] using he, coreEq_trans hc3 hce⟩
      | cons y ys =>
        obtain ⟨b3, hb3, hc3⟩ := walkStep3_forward content a y.start
          (a :: walkStep1 content lastEnd a acc) a (List.mem_cons_self _ _)
        obtain ⟨e, he, hce⟩ := walkElems_acc_forward content (y :: ys) y.start _ b3 hb3
        exact ⟨e, by simpa only [walkElems] using he, coreEq_trans hc3 hce⟩
    · cases rest with
      | nil => exact absurd h (List.not_mem_nil a)
      | cons y ys =>
        obtain ⟨e, he, hce⟩ := ih y.start
          (walkStep3 content x y.start (x :: walkStep1 content lastEnd x acc)) a h
        exact ⟨e, by simpa only [walkElems] using he, hce⟩

/-! ## Element families and the stable sort -/

theorem mem_insertByStart (e a : Elem) (l : List Elem) :
    a ∈ insertByStart e l ↔ a = e ∨ a ∈ l := by
  induction l with
  | nil => simp [insertByStart]
  | cons x xs ih =>
    unfold insertByStart
    by_cases hx : x.start ≤ e.start
    · rw [if_pos hx]
      simp only [List.mem_cons, ih]
      tauto
    · rw [if_neg hx]
      simp only [List.mem_cons]

theorem mem_sortFold (l : List Elem) :
    ∀ (acc : List Elem) (a : Elem),
      a ∈ l.foldl (fun acc e => insertByStart e acc) acc ↔ a ∈ acc ∨ a ∈ l := by
  induction l with
  | nil => simp
  | cons x xs ih =>
    intro acc a
    simp only [List.foldl_cons, ih, mem_insertByStart, List.mem_cons]
    tauto

theorem mem_sortByStart (l : List Elem) (a : Elem) : a ∈ sortByStart l ↔ a ∈ l := by
  unfold sortByStart
  rw [mem_sortFold]
  simp

theorem eqElems_shape (content : Str) (e : Elem) (h : e ∈ eqElems content) :
    e.etype = ElemType.eqn ∧ e.content ≠ [] := by
  simp only [eqElems] at h
  have hkeep : ∀ (inner : Str) (a b : Nat),
      (if stripWs inner ≠ [] then
        some (⟨ElemType.eqn, stripWs inner, a, b, "Key Equation".data, none⟩ : Elem)
      else none) = some e →
      e.etype = ElemType.eqn ∧ e.content ≠ [] := by
    intro inner a b hs
    split at hs
    · next hc =>
        cases hs
        exact ⟨rfl, hc⟩
    · exact absurd hs (by simp)
  rcases List.mem_append.mp h with h' | h'
  · rcases List.mem_append.mp h' with h2 | h2
    · obtain ⟨m, _, hm⟩ := List.mem_filterMap.mp h2
      exact hkeep m.inner m.start m.stop hm
    · obtain ⟨m, _, hm⟩ := List.mem_filterMap.mp h2
      exact hkeep m.1 m.2.1 m.2.2 hm
  · obtain ⟨m, _, hm⟩ := List.mem_filterMap.mp h'
    exact hkeep m.1 m.2.1 m.2.2 hm

theorem paraElems_shape (content : Str) (e : Elem) (h : e ∈ paraElems content) :
    e.etype = ElemType.par := by
  simp only [paraElems] at h
  obtain ⟨m, _, hm⟩ := List.mem_filterMap.mp h
  split at hm
  · cases hm
    rfl
  · exact absurd hm (by simp)

theorem thmElems_mem (content : Str) (a : Elem) (h : a ∈ thmElems content) :
    ∃ m ∈ envScan theoremEnvNames content,
      a = ⟨ElemType.thm, cleanLatexText m.inner, m.start, m.stop, pyTitle m.name, none⟩ := by
  simp only [thmElems] at h
  obtain ⟨m, hm, heq⟩ := List.mem_map.mp h
  exact ⟨m, hm, heq.symm⟩

theorem thmElems_of_match (content : Str) (m : EnvMatch)
    (h : m ∈ envScan theoremEnvNames content) :
    (⟨ElemType.thm, cleanLatexText m.inner, m.start, m.stop, pyTitle m.name, none⟩ : Elem)
      ∈ thmElems content := by
  simp only [thmElems]
  exact List.mem_map.mpr ⟨m, h, rfl⟩

theorem elementNode_of_thm (L : Nat) (e : Elem) (h : e.etype = ElemType.thm) :
    elementNode L e = ⟨e.title, e.content, "theorem".data, L + 1, []⟩ := by
  obtain ⟨et, co, st, sp, ti, ex⟩ := e
  cases et with
  | thm => rfl
  | eqn => exact absurd h (by simp)
  | par => exact absurd h (by simp)
  | expl => exact absurd h (by simp)

theorem elementNode_etype_of_thm (L : Nat) (e : Elem)
    (h : (elementNode L e).ntype = "theorem".data) : e.etype = ElemType.thm := by
  obtain ⟨et, co, st, sp, ti, ex⟩ := e
  cases et with
  | thm => rfl
  | eqn =>
    cases ex with
    | none => exact absurd (show ("equation".data : Str) = "theorem".data from h) (by decide)
    | some exs =>
      by_cases hex : exs = []
      · subst hex
        exact absurd (show ("equation".data : Str) = "theorem".data from h) (by decide)
      · have hr : (elementNode L ⟨ElemType.eqn, co, st, sp, ti, some exs⟩).ntype =
            "equation_with_explanation".data := by
          simp [elementNode, hex]
        rw [hr] at h
        exact absurd h (by decide)
  | par => exact absurd (show ("paragraph".data : Str) = "theorem".data from h) (by decide)
  | expl => exact absurd (show ("explanation".data : Str) = "theorem".data from h) (by decide)

/-- C4 (amended): every theorem-environment node the block extractor creates
carries the fixed kind string `theorem` (the environment name is not used as
the kind); its title is the capitalized environment name, its content the
sanitized inner text, and its level the parent level plus one. -/
theorem C4_theorem_nodes_shape (secLevel : Nat) (content : Str) (nd : NodeData)
    (h : nd ∈ structuredNodes secLevel content) (ht : nd.ntype = "theorem".data) :
    ∃ m ∈ envScan theoremEnvNames content,
      nd.title = pyTitle m.name ∧ nd.content = cleanLatexText m.inner ∧
        nd.level = secLevel + 1 := by
  obtain ⟨e, he, rfl⟩ := List.mem_map.mp h
  have hety : e.etype = ElemType.thm := elementNode_etype_of_thm secLevel e ht
  rcases walkElems_backward content (allElements content) 0 [] e he with hexp | ⟨a, ha, _⟩ |
    ⟨a, ha, hca⟩
  · exact absurd (hety.symm.trans hexp.1) (by decide)
  · exact absurd ha (List.not_mem_nil a)
  · have haty : a.etype = ElemType.thm := (hca.1.symm).trans hety
    rw [allElements, mem_sortByStart] at ha
    rcases List.mem_append.mp ha with h' | h'
    · rcases List.mem_append.mp h' with h2 | h2
      · exact absurd ((eqElems_shape content a h2).1.symm.trans haty) (by decide)
      · obtain ⟨m, hm, hae⟩ := thmElems_mem content a h2
        refine ⟨m, hm, ?_, ?_, ?_⟩
        · rw [elementNode_of_thm secLevel e hety]
          show e.title = pyTitle m.name
          rw [hca.2.1, hae]
        · rw [elementNode_of_thm secLevel e hety]
          show e.content = cleanLatexText m.inner
          rw [hca.2.2, hae]
        · rw [elementNode_of_thm secLevel e hety]
    · exact absurd ((paraElems_shape content a h').symm.trans haty) (by decide)

/-- Witness for C4: a lemma environment yields a node of kind `theorem` with
title `Lemma`. -/
theorem C4_witness :
    (⟨"Lemma".data, "L".data, "theorem".data, 3, []⟩ : NodeData) ∈
        structuredNodes 2 "\\begin\x7blemma\x7dL\\end\x7blemma\x7d".data ∧
      ∃ m ∈ envScan theoremEnvNames "\\begin\x7blemma\x7dL\\end\x7blemma\x7d".data,
        ("Lemma".data : Str) = pyTitle m.name ∧
          ("L".data : Str) = cleanLatexText m.inner ∧ 3 = 2 + 1 :=
  ⟨by decide,
    C4_theorem_nodes_shape 2 "\\begin\x7blemma\x7dL\\end\x7blemma\x7d".data
      ⟨"Lemma".data, "L".data, "theorem".data, 3, []⟩ (by decide) (by decide)⟩

/-- C4 counterexample: a `lemma` environment produces a node whose kind is the
literal string `theorem`, not the environment name `lemma` as the claim
states. -/
theorem C4_counterexample :
    structuredNodes 2 "\\begin\x7blemma\x7dL\\end\x7blemma\x7d".data =
        [⟨"Lemma".data, "L".data, "theorem".data, 3, []⟩] ∧
      ("theorem".data : Str) ≠ "lemma".data :=
  ⟨by decide, by decide⟩

/-- C10 (amended): a display-math match whose inner text is empty or
whitespace-only is filtered out before the element list is built — every
equation element carries nonempty stripped content, so no equation node is
ever made from such a match — while a theorem-like environment yields an
element, and hence a node of kind `theorem`, unconditionally, even when its
sanitized body is empty.  (The dropped math text is not consumed, though: it
can still surface inside an adjacent explanation node, see the
counterexample.) -/
theorem C10_empty_math_filtered (secLevel : Nat) (content : Str) :
    (∀ e ∈ eqElems content, e.etype = ElemType.eqn ∧ e.content ≠ []) ∧
      (∀ m ∈ envScan theoremEnvNames content,
        ∃ nd ∈ structuredNodes secLevel content,
          nd.ntype = "theorem".data ∧ nd.title = pyTitle m.name ∧
            nd.content = cleanLatexText m.inner) := by
  constructor
  · exact fun e he => eqElems_shape content e he
  · intro m hm
    have ha : (⟨ElemType.thm, cleanLatexText m.inner, m.start, m.stop,
        pyTitle m.name, none⟩ : Elem) ∈ allElements content := by
      rw [allElements, mem_sortByStart]
      exact List.mem_append.mpr
        (Or.inl (List.mem_append.mpr (Or.inr (thmElems_of_match content m hm))))
    obtain ⟨e, he, hce⟩ := walkElems_forward content (allElements content) 0 [] _ ha
    have hety : e.etype = ElemType.thm := hce.1
    refine ⟨elementNode secLevel e, List.mem_map.mpr ⟨e, he, rfl⟩, ?_, ?_, ?_⟩
    · rw [elementNode_of_thm secLevel e hety]
    · rw [elementNode_of_thm secLevel e hety]
      show e.title = _
      exact hce.2.1
    · rw [elementNode_of_thm secLevel e hety]
      show e.content = _
      exact hce.2.2

/-- Witness for C10: an empty theorem environment still yields a node with
empty content. -/
theorem C10_witness :
    ∃ nd ∈ structuredNodes 2 "\\begin\x7btheorem\x7d\\end\x7btheorem\x7d".data,
      nd.ntype = "theorem".data ∧ nd.title = pyTitle "theorem".data ∧
        nd.content = cleanLatexText [] :=
  (C10_empty_math_filtered 2 "\\begin\x7btheorem\x7d\\end\x7btheorem\x7d".data).2
    ⟨"theorem".data, [], 0, 28⟩ (by decide)

/-- C10 counterexample: the claim's "produces no node at all" fails — a
whitespace-only `$$ $$` adjacent to a theorem environment is dropped as an
equation, but its raw text re-surfaces as the content of an `explanation`
node created from the gap text after the theorem. -/
theorem C10_counterexample :
    structuredNodes 2 "\\begin\x7btheorem\x7dT\\end\x7btheorem\x7d $$ $$".data =
      [⟨"Theorem".data, "T".data, "theorem".data, 3, []⟩,
       ⟨"Explanation".data, "$$ $$".data, "explanation".data, 3, []⟩] := by decide

/-! ## Store lemmas -/

theorem length_setN (σ : Store) (i : Nat) (nd : NodeData) :
    (setN σ i nd).length = σ.length := by
  induction σ generalizing i with
  | nil => rfl
  | cons a l ih =>
    cases i with
    | zero => rfl
    | succ n => simpa [setN] using ih n

theorem setN_oob (σ : Store) (i : Nat) (nd : NodeData) (h : σ.length ≤ i) :
    setN σ i nd = σ := by
  induction σ generalizing i with
  | nil => rfl
  | cons a l ih =>
    cases i with
    | zero => exact absurd h (by simp)
    | succ n =>
      simp only [setN, List.cons.injEq, true_and]
      exact ih n (by simpa using h)

theorem getN_oob (σ : Store) (i : Nat) (h : σ.length ≤ i) : getN σ i = dummyNode := by
  induction σ generalizing i with
  | nil => rfl
  | cons a l ih =>
    cases i with
    | zero => exact absurd h (by simp)
    | succ n => exact ih n (by simpa using h)

theorem getN_setN_self (σ : Store) (i : Nat) (nd : NodeData) (h : i < σ.length) :
    getN (setN σ i nd) i = nd := by
  induction σ generalizing i with
  | nil => exact absurd h (by simp)
  | cons a l ih =>
    cases i with
    | zero => rfl
    | succ n => exact ih n (by simpa using h)

theorem getN_setN_ne (σ : Store) (p : Nat) (nd : NodeData) (i : Nat) (h : p ≠ i) :
    getN (setN σ p nd) i = getN σ i := by
  induction σ generalizing p i with
  | nil => rfl
  | cons a l ih =>
    cases p with
    | zero =>
      cases i with
      | zero => exact absurd rfl h
      | succ m => rfl
    | succ n =>
      cases i with
      | zero => rfl
      | succ m => exact ih n m (fun hnm => h (by rw [hnm]))

theorem getN_append_lt (σ l : Store) (i : Nat) (h : i < σ.length) :
    getN (σ ++ l) i = getN σ i := by
  induction σ generalizing i with
  | nil => exact absurd h (by simp)
  | cons a t ih =>
    cases i with
    | zero => rfl
    | succ n => exact ih n (by simpa using h)

theorem getN_append_len (σ : Store) (nd : NodeData) :
    getN (σ ++ [nd]) σ.length = nd := by
  induction σ with
  | nil => rfl
  | cons a t ih => simpa using ih

theorem length_attachChild (σ : Store) (p c : Nat) :
    (attachChild σ p c).length = σ.length := length_setN σ p _

theorem getN_attachChild_ne (σ : Store) (p c i : Nat) (h : p ≠ i) :
    getN (attachChild σ p c) i = getN σ i := getN_setN_ne σ p _ i h

theorem getN_attachChild_self (σ : Store) (p c : Nat) (h : p < σ.length) :
    getN (attachChild σ p c) p =
      { getN σ p with children := (getN σ p).children ++ [c] } :=
  getN_setN_self σ p _ h

/-- `attachChild` changes no field other than `children`, at any index. -/
theorem attachChild_fields (σ : Store) (p c i : Nat) :
    (getN (attachChild σ p c) i).content = (getN σ i).content ∧
      (getN (attachChild σ p c) i).ntype = (getN σ i).ntype ∧
      (getN (attachChild σ p c) i).level = (getN σ i).level ∧
      (getN (attachChild σ p c) i).title = (getN σ i).title := by
  by_cases hip : p = i
  · subst hip
    by_cases hp : p < σ.length
    · rw [getN_attachChild_self σ p c hp]
      exact ⟨rfl, rfl, rfl, rfl⟩
    · unfold attachChild
      rw [setN_oob _ _ _ (le_of_not_lt hp)]
      exact ⟨rfl, rfl, rfl, rfl⟩
  · rw [getN_attachChild_ne σ p c i hip]
    exact ⟨rfl, rfl, rfl, rfl⟩

theorem length_appendLeaf (σ : Store) (p : Nat) (nd : NodeData) :
    (appendLeaf σ p nd).length = σ.length + 1 := by
  unfold appendLeaf
  rw [length_attachChild]
  simp

/-- `appendLeaf` does not change any field but `children` of existing nodes. -/
theorem appendLeaf_fields (σ : Store) (p : Nat) (nd : NodeData) (i : Nat)
    (hi : i < σ.length) :
    (getN (appendLeaf σ p nd) i).content = (getN σ i).content ∧
      (getN (appendLeaf σ p nd) i).ntype = (getN σ i).ntype ∧
      (getN (appendLeaf σ p nd) i).level = (getN σ i).level ∧
      (getN (appendLeaf σ p nd) i).title = (getN σ i).title := by
  unfold appendLeaf
  obtain ⟨h1, h2, h3, h4⟩ := attachChild_fields (σ ++ [nd]) p σ.length i
  rw [getN_append_lt σ [nd] i hi] at h1 h2 h3 h4
  exact ⟨h1, h2, h3, h4⟩

theorem length_appendLeaves (σ : Store) (p : Nat) (nds : List NodeData) :
    (appendLeaves σ p nds).length = σ.length + nds.length := by
  induction nds generalizing σ with
  | nil => rfl
  | cons nd rest ih =>
    show (appendLeaves (appendLeaf σ p nd) p rest).length = _
    rw [ih, length_appendLeaf]
    simp only [List.length_cons]
    omega

/-- `appendLeaves` preserves every field but `children` of existing nodes. -/
theorem appendLeaves_fields (σ : Store) (p : Nat) (nds : List NodeData) (i : Nat)
    (hi : i < σ.length) :
    (getN (appendLeaves σ p nds) i).content = (getN σ i).content ∧
      (getN (appendLeaves σ p nds) i).ntype = (getN σ i).ntype ∧
      (getN (appendLeaves σ p nds) i).level = (getN σ i).level ∧
      (getN (appendLeaves σ p nds) i).title = (getN σ i).title := by
  induction nds generalizing σ with
  | nil => exact ⟨rfl, rfl, rfl, rfl⟩
  | cons nd rest ih =>
    show (getN (appendLeaves (appendLeaf σ p nd) p rest) i).content = _ ∧ _
    have hi2 : i < (appendLeaf σ p nd).length := by
      rw [length_appendLeaf]; omega
    obtain ⟨a1, a2, a3, a4⟩ := ih (appendLeaf σ p nd) hi2
    obtain ⟨b1, b2, b3, b4⟩ := appendLeaf_fields σ p nd i hi
    exact ⟨a1.trans b1, a2.trans b2, a3.trans b3, a4.trans b4⟩

/-! ## The one-time definition merge (C3) -/

/-- C3 (amended): the one-time definition merge exists only on the
loose-content path (`_add_content_to_current_section`, which runs for text
before the first sectioning match or in documents with no sections): when the
current deepest open node has no content and no children and the span holds
exactly one theorem-environment match — a definition — and no
`\begin{equation}` block, that node's own content becomes the sanitized body,
its kind becomes `section_with_definition`, and no node is added.  A section's
own span never merges: the block extractor leaves the section's content and
kind untouched, so its definition environments become `theorem`-kind children
instead (see the counterexample). -/
theorem C3_definition_merge_loose_only (σ : Store) (st : Stack) (content : Str)
    (tid : Nat) (hlookup : stackLookup st (stackMaxKey st) = some tid)
    (hcontent : (getN σ tid).content = []) (hchildren : (getN σ tid).children = [])
    (i : Str) (a b : Nat)
    (hthm : envScan theoremEnvNames content = [⟨"definition".data, i, a, b⟩])
    (heq : envScan ["equation".data] content = []) :
    addContentToCurrentSection σ st content =
        setN σ tid { getN σ tid with
          content := cleanLatexText i
          ntype := "section_with_definition".data } ∧
      ∀ (σ2 : Store) (secId : Nat) (c2 : Str), secId < σ2.length →
        (getN (addStructuredContentToSection σ2 secId c2) secId).content =
            (getN σ2 secId).content ∧
          (getN (addStructuredContentToSection σ2 secId c2) secId).ntype =
            (getN σ2 secId).ntype := by
  constructor
  · unfold addContentToCurrentSection
    rw [hlookup, hthm, heq]
    show (if ("definition".data : Str) = "definition".data ∧
        (getN σ tid).content = [] ∧ (getN σ tid).children = [] then
      setN σ tid { getN σ tid with
        content := cleanLatexText i
        ntype := "section_with_definition".data }
      else appendLeaf σ tid ⟨pyTitle "definition".data, cleanLatexText i,
        "definition".data, (getN σ tid).level + 1, []⟩) = _
    rw [if_pos ⟨rfl, hcontent, hchildren⟩]
  · intro σ2 secId c2 h2
    obtain ⟨h1, hty, _, _⟩ := appendLeaves_fields σ2 secId _ secId h2
    exact ⟨h1, hty⟩

/-- Witness for C3 at a concrete loose-content merge into the root. -/
theorem C3_witness :
    addContentToCurrentSection [⟨"T".data, [], "document".data, 0, []⟩] [(0, 0)]
          "\\begin\x7bdefinition\x7dX\\end\x7bdefinition\x7d".data =
        setN [⟨"T".data, [], "document".data, 0, []⟩] 0
          { getN [⟨"T".data, [], "document".data, 0, []⟩] 0 with
              content := cleanLatexText "X".data
              ntype := "section_with_definition".data } ∧
      ∀ (σ2 : Store) (secId : Nat) (c2 : Str), secId < σ2.length →
        (getN (addStructuredContentToSection σ2 secId c2) secId).content =
            (getN σ2 secId).content ∧
          (getN (addStructuredContentToSection σ2 secId c2) secId).ntype =
            (getN σ2 secId).ntype :=
  C3_definition_merge_loose_only [⟨"T".data, [], "document".data, 0, []⟩] [(0, 0)]
    "\\begin\x7bdefinition\x7dX\\end\x7bdefinition\x7d".data 0 (by decide) (by decide)
    (by decide) "X".data 0 35 (by decide) (by decide)

/-- C3 counterexample: a section whose entire span is one definition
environment does NOT merge it — the section keeps content `""` and kind
`section`, and gets one child of kind `theorem` holding the definition body,
contradicting the claimed `section_with_definition` merge with zero
children. -/
theorem C3_counterexample :
    parse "\\section\x7bWidgets\x7d\\begin\x7bdefinition\x7dA widget is nice\\end\x7bdefinition\x7d".data =
      [⟨"Widgets".data, [], "document".data, 0, [1]⟩,
       ⟨"Widgets".data, [], "section".data, 2, [2]⟩,
       ⟨"Definition".data, "A widget is nice".data, "theorem".data, 3, []⟩] := by decide

/-! ## Store-invariant machinery for level monotonicity -/

theorem evol_refl (σ : Store) : Evol σ σ :=
  ⟨le_refl _, fun _ _ => ⟨rfl, Or.inl rfl⟩⟩

theorem evol_trans {σ1 σ2 σ3 : Store} (h1 : Evol σ1 σ2) (h2 : Evol σ2 σ3) :
    Evol σ1 σ3 := by
  refine ⟨le_trans h1.1 h2.1, fun i hi => ?_⟩
  have hi2 : i < σ2.length := lt_of_lt_of_le hi h1.1
  obtain ⟨l1, t1⟩ := h1.2 i hi
  obtain ⟨l2, t2⟩ := h2.2 i hi2
  refine ⟨l2.trans l1, ?_⟩
  rcases t2 with t2 | t2
  · rcases t1 with t1 | t1
    · exact Or.inl (t2.trans t1)
    · exact Or.inr (t2.trans t1)
  · exact Or.inr t2

theorem stackOK_evol {σ σ2 : Store} {st : Stack} (hok : StackOK σ st)
    (he : Evol σ σ2) : StackOK σ2 st := by
  intro e hmem
  obtain ⟨hlt, hlv⟩ := hok e hmem
  exact ⟨lt_of_lt_of_le hlt he.1, ((he.2 e.2 hlt).1).trans hlv⟩

theorem evol_append (σ : Store) (nd : NodeData) : Evol σ (σ ++ [nd]) := by
  refine ⟨by simp, fun i hi => ?_⟩
  rw [getN_append_lt σ [nd] i hi]
  exact ⟨rfl, Or.inl rfl⟩

theorem evol_attach (σ : Store) (p c : Nat) : Evol σ (attachChild σ p c) := by
  refine ⟨le_of_eq (length_attachChild σ p c).symm, fun i _ => ?_⟩
  obtain ⟨_, h2, h3, _⟩ := attachChild_fields σ p c i
  exact ⟨h3, Or.inl h2⟩

theorem evol_appendLeaf (σ : Store) (p : Nat) (nd : NodeData) :
    Evol σ (appendLeaf σ p nd) := by
  refine ⟨by rw [length_appendLeaf]; omega, fun i hi => ?_⟩
  obtain ⟨_, h2, h3, _⟩ := appendLeaf_fields σ p nd i hi
  exact ⟨h3, Or.inl h2⟩

theorem evol_appendLeaves (σ : Store) (p : Nat) (nds : List NodeData) :
    Evol σ (appendLeaves σ p nds) := by
  refine ⟨by rw [length_appendLeaves]; omega, fun i hi => ?_⟩
  obtain ⟨_, h2, h3, _⟩ := appendLeaves_fields σ p nds i hi
  exact ⟨h3, Or.inl h2⟩

theorem evol_merge (σ : Store) (tid : Nat) (c2 : Str) :
    Evol σ (setN σ tid { getN σ tid with
      content := c2
      ntype := "section_with_definition".data }) := by
  refine ⟨le_of_eq (length_setN σ tid _).symm, fun i hi => ?_⟩
  by_cases hti : tid = i
  · subst hti
    by_cases ht : tid < σ.length
    · rw [getN_setN_self σ tid _ ht]
      exact ⟨rfl, Or.inr rfl⟩
    · rw [setN_oob σ tid _ (le_of_not_lt ht)]
      exact ⟨rfl, Or.inl rfl⟩
  · rw [getN_setN_ne σ tid _ i hti]
    exact ⟨rfl, Or.inl rfl⟩

theorem inv_append (σ : Store) (nd : NodeData) (hnd : nd.children = [])
    (hinv : InvStore σ) : InvStore (σ ++ [nd]) := by
  have hget : ∀ j, (getN (σ ++ [nd]) j).children ≠ [] → j < σ.length ∧
      getN (σ ++ [nd]) j = getN σ j := by
    intro j hj
    rcases Nat.lt_trichotomy j σ.length with h | h | h
    · exact ⟨h, getN_append_lt σ [nd] j h⟩
    · subst h
      rw [getN_append_len σ nd] at hj
      exact absurd hnd hj
    · have : (σ ++ [nd]).length ≤ j := by simp; omega
      rw [getN_oob _ j this] at hj
      exact absurd rfl hj
  constructor
  · intro i c hc
    have hne : (getN (σ ++ [nd]) i).children ≠ [] := by
      intro h0; rw [h0] at hc; exact absurd hc (List.not_mem_nil c)
    obtain ⟨hi, hgi⟩ := hget i hne
    rw [hgi] at hc ⊢
    have hcl : c < σ.length := hinv.2 i c hc
    rw [getN_append_lt σ [nd] c hcl]
    exact hinv.1 i c hc
  · intro i c hc
    have hne : (getN (σ ++ [nd]) i).children ≠ [] := by
      intro h0; rw [h0] at hc; exact absurd hc (List.not_mem_nil c)
    obtain ⟨hi, hgi⟩ := hget i hne
    rw [hgi] at hc
    have := hinv.2 i c hc
    simp only [List.length_append, List.length_cons, List.length_nil]
    omega

theorem inv_attach (σ : Store) (p c : Nat) (hc : c < σ.length)
    (hlt : (getN σ p).level < (getN σ c).level)
    (hinv : InvStore σ) : InvStore (attachChild σ p c) := by
  by_cases hp : p < σ.length
  · have hch : ∀ j, (getN (attachChild σ p c) j).children =
        if p = j then (getN σ j).children ++ [c] else (getN σ j).children := by
      intro j
      by_cases hpj : p = j
      · subst hpj
        rw [getN_attachChild_self σ p c hp, if_pos rfl]
      · rw [getN_attachChild_ne σ p c j hpj, if_neg hpj]
    constructor
    · intro i c2 hc2
      rw [hch i] at hc2
      have hlv : ∀ j, (getN (attachChild σ p c) j).level = (getN σ j).level :=
        fun j => (attachChild_fields σ p c j).2.2.1
      rw [hlv i, hlv c2]
      by_cases hpi : p = i
      · rw [if_pos hpi] at hc2
        rcases List.mem_append.1 hc2 with h | h
        · exact hinv.1 i c2 h
        · have hcc : c2 = c := by simpa using h
          subst hcc
          subst hpi
          exact hlt
      · rw [if_neg hpi] at hc2
        exact hinv.1 i c2 hc2
    · intro i c2 hc2
      rw [hch i] at hc2
      rw [length_attachChild]
      by_cases hpi : p = i
      · rw [if_pos hpi] at hc2
        rcases List.mem_append.1 hc2 with h | h
        · exact hinv.2 i c2 h
        · have hcc : c2 = c := by simpa using h
          subst hcc
          exact hc
      · rw [if_neg hpi] at hc2
        exact hinv.2 i c2 hc2
  · unfold attachChild
    rw [setN_oob σ p _ (le_of_not_lt hp)]
    exact hinv

theorem inv_appendLeaf (σ : Store) (p : Nat) (nd : NodeData)
    (hp : p < σ.length) (hnd : nd.children = [])
    (hlt : (getN σ p).level < nd.level)
    (hinv : InvStore σ) : InvStore (appendLeaf σ p nd) := by
  unfold appendLeaf
  have h1 : InvStore (σ ++ [nd]) := inv_append σ nd hnd hinv
  have hc : σ.length < (σ ++ [nd]).length := by simp
  have hl2 : (getN (σ ++ [nd]) p).level < (getN (σ ++ [nd]) σ.length).level := by
    rw [getN_append_lt σ [nd] p hp, getN_append_len σ nd]
    exact hlt
  exact inv_attach (σ ++ [nd]) p σ.length hc hl2 h1

theorem inv_setLike (σ : Store) (tid : Nat) (nd2 : NodeData)
    (hch : nd2.children = (getN σ tid).children)
    (hlv : nd2.level = (getN σ tid).level)
    (hinv : InvStore σ) : InvStore (setN σ tid nd2) := by
  by_cases ht : tid < σ.length
  · have hcs : ∀ j, (getN (setN σ tid nd2) j).children = (getN σ j).children := by
      intro j
      by_cases hj : tid = j
      · subst hj; rw [getN_setN_self σ tid nd2 ht, hch]
      · rw [getN_setN_ne σ tid nd2 j hj]
    have hls : ∀ j, (getN (setN σ tid nd2) j).level = (getN σ j).level := by
      intro j
      by_cases hj : tid = j
      · subst hj; rw [getN_setN_self σ tid nd2 ht, hlv]
      · rw [getN_setN_ne σ tid nd2 j hj]
    constructor
    · intro i c hc
      rw [hcs i] at hc
      rw [hls i, hls c]
      exact hinv.1 i c hc
    · intro i c hc
      rw [hcs i] at hc
      rw [length_setN]
      exact hinv.2 i c hc
  · rw [setN_oob σ tid nd2 (le_of_not_lt ht)]
    exact hinv

theorem inv_appendLeaves (σ : Store) (p : Nat) (nds : List NodeData)
    (hp : p < σ.length)
    (hnds : ∀ nd ∈ nds, nd.children = [] ∧ nd.level = (getN σ p).level + 1)
    (hinv : InvStore σ) : InvStore (appendLeaves σ p nds) := by
  induction nds generalizing σ with
  | nil => exact hinv
  | cons nd rest ih =>
    show InvStore (appendLeaves (appendLeaf σ p nd) p rest)
    obtain ⟨hc0, hl0⟩ := hnds nd (List.mem_cons_self nd rest)
    have hinv2 : InvStore (appendLeaf σ p nd) :=
      inv_appendLeaf σ p nd hp hc0 (by rw [hl0]; omega) hinv
    have hp2 : p < (appendLeaf σ p nd).length := by rw [length_appendLeaf]; omega
    have hlp : (getN (appendLeaf σ p nd) p).level = (getN σ p).level :=
      (appendLeaf_fields σ p nd p hp).2.2.1
    refine ih (appendLeaf σ p nd) hp2 ?_ hinv2
    intro nd2 hmem
    obtain ⟨a, b⟩ := hnds nd2 (List.mem_cons_of_mem nd hmem)
    exact ⟨a, by rw [hlp]; exact b⟩

theorem stackLookup_mem (st : Stack) (k tid : Nat)
    (h : stackLookup st k = some tid) : (k, tid) ∈ st := by
  unfold stackLookup at h
  cases hf : st.find? (fun e => e.1 == k) with
  | none => rw [hf] at h; exact absurd h (by simp)
  | some e =>
    rw [hf] at h
    have hmem : e ∈ st := List.mem_of_find?_eq_some hf
    have hp := List.find?_some hf
    have hk : e.1 = k := by simpa using hp
    have ht : e.2 = tid := by simpa using h
    have : e = (k, tid) := by
      cases e with
      | mk a b => simp only [Prod.mk.injEq]; exact ⟨hk, ht⟩
    rw [this] at hmem
    exact hmem

theorem stackOK_lookup {σ : Store} {st : Stack} {k tid : Nat}
    (hok : StackOK σ st) (h : stackLookup st k = some tid) :
    tid < σ.length ∧ (getN σ tid).level = k :=
  hok (k, tid) (stackLookup_mem st k tid h)

theorem findParentId_spec (stk : Stack) (level pid : Nat)
    (h : findParentId stk level = some pid) :
    ∃ k, k < level ∧ stackLookup stk k = some pid := by
  unfold findParentId at h
  cases hf : (List.range level).reverse.find? (fun k => (stackLookup stk k).isSome) with
  | none => rw [hf] at h; exact absurd h (by simp)
  | some k =>
    rw [hf] at h
    have hmem : k ∈ (List.range level).reverse := List.mem_of_find?_eq_some hf
    have hk : k < level := by
      rw [List.mem_reverse, List.mem_range] at hmem
      exact hmem
    exact ⟨k, hk, h⟩

theorem stackOK_insert {σ : Store} {st : Stack} (k id : Nat)
    (hok : StackOK σ st) (hid : id < σ.length)
    (hlv : (getN σ id).level = k) : StackOK σ (stackInsert st k id) := by
  intro e hmem
  unfold stackInsert at hmem
  rcases List.mem_cons.1 hmem with h | h
  · subst h; exact ⟨hid, hlv⟩
  · exact hok e (List.mem_of_mem_filter h)

theorem stackOK_erase {σ : Store} {st : Stack} (k : Nat)
    (hok : StackOK σ st) : StackOK σ (stackEraseAbove st k) := by
  intro e hmem
  exact hok e (List.mem_of_mem_filter hmem)

theorem foldl_pres {α : Type} (P : Store → Prop) (f : Store → α → Store)
    (hf : ∀ σ x, P σ → P (f σ x)) :
    ∀ (l : List α) (σ : Store), P σ → P (l.foldl f σ) := by
  intro l
  induction l with
  | nil => intro σ h; exact h
  | cons x xs ih => intro σ h; exact ih (f σ x) (hf σ x h)

theorem structuredNodes_shape (L : Nat) (content : Str) (nd : NodeData)
    (h : nd ∈ structuredNodes L content) :
    nd.children = [] ∧ nd.level = L + 1 := by
  unfold structuredNodes at h
  obtain ⟨e, _, rfl⟩ := List.mem_map.1 h
  obtain ⟨et, ec, ea, eb, etl, eex⟩ := e
  cases et with
  | eqn =>
    cases eex with
    | none => exact ⟨rfl, rfl⟩
    | some x =>
      simp only [elementNode]
      by_cases hx : x ≠ []
      · rw [if_pos hx]; exact ⟨rfl, rfl⟩
      · rw [if_neg hx]; exact ⟨rfl, rfl⟩
  | thm => exact ⟨rfl, rfl⟩
  | par => exact ⟨rfl, rfl⟩
  | expl => exact ⟨rfl, rfl⟩

theorem inv_addContent (σ : Store) (st : Stack) (content : Str)
    (hinv : InvStore σ) (hok : StackOK σ st) :
    InvStore (addContentToCurrentSection σ st content) ∧
      Evol σ (addContentToCurrentSection σ st content) := by
  unfold addContentToCurrentSection
  cases hl : stackLookup st (stackMaxKey st) with
  | none => exact ⟨hinv, evol_refl σ⟩
  | some tid =>
    have htid : tid < σ.length := (stackOK_lookup hok hl).1
    have hstep1 : ∀ σ2 (m : EnvMatch), (InvStore σ2 ∧ Evol σ σ2) →
        InvStore (if m.name = "definition".data ∧ (getN σ2 tid).content = [] ∧
              (getN σ2 tid).children = [] then
            setN σ2 tid { getN σ2 tid with
              content := cleanLatexText m.inner
              ntype := "section_with_definition".data }
          else appendLeaf σ2 tid ⟨pyTitle m.name, cleanLatexText m.inner, m.name,
              (getN σ2 tid).level + 1, []⟩) ∧
          Evol σ (if m.name = "definition".data ∧ (getN σ2 tid).content = [] ∧
              (getN σ2 tid).children = [] then
            setN σ2 tid { getN σ2 tid with
              content := cleanLatexText m.inner
              ntype := "section_with_definition".data }
          else appendLeaf σ2 tid ⟨pyTitle m.name, cleanLatexText m.inner, m.name,
              (getN σ2 tid).level + 1, []⟩) := by
      intro σ2 m hP
      have htid2 : tid < σ2.length := lt_of_lt_of_le htid hP.2.1
      by_cases hcond : m.name = "definition".data ∧ (getN σ2 tid).content = [] ∧
          (getN σ2 tid).children = []
      · rw [if_pos hcond]
        refine ⟨inv_setLike σ2 tid _ rfl rfl hP.1, ?_⟩
        exact evol_trans hP.2 (evol_merge σ2 tid (cleanLatexText m.inner))
      · rw [if_neg hcond]
        refine ⟨inv_appendLeaf σ2 tid _ htid2 rfl (Nat.lt_succ_self _) hP.1, ?_⟩
        exact evol_trans hP.2 (evol_appendLeaf σ2 tid _)
    have hstep2 : ∀ σ2 (m : EnvMatch), (InvStore σ2 ∧ Evol σ σ2) →
        InvStore (appendLeaf σ2 tid ⟨"Equation".data,
            "$$".data ++ stripWs m.inner ++ "$$".data,
            "equation".data, (getN σ2 tid).level + 1, []⟩) ∧
          Evol σ (appendLeaf σ2 tid ⟨"Equation".data,
            "$$".data ++ stripWs m.inner ++ "$$".data,
            "equation".data, (getN σ2 tid).level + 1, []⟩) := by
      intro σ2 m hP
      have htid2 : tid < σ2.length := lt_of_lt_of_le htid hP.2.1
      refine ⟨inv_appendLeaf σ2 tid _ htid2 rfl (Nat.lt_succ_self _) hP.1, ?_⟩
      exact evol_trans hP.2 (evol_appendLeaf σ2 tid _)
    have h1 := foldl_pres (fun σ2 => InvStore σ2 ∧ Evol σ σ2) _ hstep1
      (envScan theoremEnvNames content) σ ⟨hinv, evol_refl σ⟩
    exact foldl_pres (fun σ2 => InvStore σ2 ∧ Evol σ σ2) _ hstep2
      (envScan ["equation".data] content) _ h1

theorem inv_looseAdd (σ : Store) (stk : Stack) (s : Str) (c1 c2 : Prop)
    [Decidable c1] [Decidable c2]
    (hinv : InvStore σ) (hok : StackOK σ stk) :
    InvStore (if c1 then (if c2 then addContentToCurrentSection σ stk s else σ)
        else σ) ∧
      Evol σ (if c1 then (if c2 then addContentToCurrentSection σ stk s else σ)
        else σ) := by
  by_cases h1 : c1
  · rw [if_pos h1]
    by_cases h2 : c2
    · rw [if_pos h2]; exact inv_addContent σ stk s hinv hok
    · rw [if_neg h2]; exact ⟨hinv, evol_refl σ⟩
  · rw [if_neg h1]; exact ⟨hinv, evol_refl σ⟩

/-- The body of one `stepSection` iteration preserves the store invariant,
evolves the store, and leaves the new stack consistent. -/
theorem stepSection_core (σ0 σa σb σc σd : Store) (stk : Stack) (nd : NodeData)
    (remaining : Str) (level id : Nat)
    (hnd : nd.children = []) (hlv : nd.level = level) (hid : id = σa.length)
    (hb : σb = σa ++ [nd])
    (hc : σc = (match findParentId stk level with
      | some pid => attachChild σb pid id
      | none => σb))
    (hd : σd = (if remaining ≠ [] then addStructuredContentToSection σc id remaining
      else σc))
    (hA : InvStore σa) (hE : Evol σ0 σa) (hok : StackOK σ0 stk) :
    InvStore σd ∧ Evol σ0 σd ∧
      StackOK σd (stackEraseAbove (stackInsert stk level id) level) := by
  subst hid
  subst hb
  have hokA : StackOK σa stk := stackOK_evol hok hE
  have hInvB : InvStore (σa ++ [nd]) := inv_append σa nd hnd hA
  have hEab : Evol σa (σa ++ [nd]) := evol_append σa nd
  have hokB : StackOK (σa ++ [nd]) stk := stackOK_evol hokA hEab
  have hidlt : σa.length < (σa ++ [nd]).length := by simp
  have hgid : getN (σa ++ [nd]) σa.length = nd := getN_append_len σa nd
  have hcFacts : InvStore σc ∧ Evol (σa ++ [nd]) σc ∧
      (getN σc σa.length).level = level ∧ σa.length < σc.length := by
    cases hf : findParentId stk level with
    | none =>
      have hc2 : σc = σa ++ [nd] := by rw [hc, hf]
      rw [hc2]
      exact ⟨hInvB, evol_refl _, by rw [hgid, hlv], hidlt⟩
    | some pid =>
      have hc2 : σc = attachChild (σa ++ [nd]) pid σa.length := by rw [hc, hf]
      obtain ⟨k, hk, hlk⟩ := findParentId_spec stk level pid hf
      obtain ⟨hpidlt, hpidlv⟩ := stackOK_lookup hokB hlk
      have hlt : (getN (σa ++ [nd]) pid).level <
          (getN (σa ++ [nd]) σa.length).level := by
        rw [hpidlv, hgid, hlv]; exact hk
      rw [hc2]
      refine ⟨inv_attach _ pid σa.length hidlt hlt hInvB,
        evol_attach _ pid _, ?_, ?_⟩
      · have hfld := (attachChild_fields (σa ++ [nd]) pid σa.length σa.length).2.2.1
        rw [hfld, hgid, hlv]
      · rw [length_attachChild]; exact hidlt
  obtain ⟨hInvC, hEbc, hlvC, hidC⟩ := hcFacts
  have hokC : StackOK σc stk := stackOK_evol hokB hEbc
  have hokC2 : StackOK σc (stackEraseAbove (stackInsert stk level σa.length) level) :=
    stackOK_erase level (stackOK_insert level σa.length hokC hidC hlvC)
  have hdFacts : InvStore σd ∧ Evol σc σd := by
    by_cases hr : remaining ≠ []
    · have hd2 : σd = addStructuredContentToSection σc σa.length remaining := by
        rw [hd, if_pos hr]
      rw [hd2]
      unfold addStructuredContentToSection
      refine ⟨inv_appendLeaves σc σa.length _ hidC ?_ hInvC,
        evol_appendLeaves _ _ _⟩
      intro nd2 hmem
      exact structuredNodes_shape _ remaining nd2 hmem
    · have hd2 : σd = σc := by rw [hd, if_neg hr]
      rw [hd2]
      exact ⟨hInvC, evol_refl _⟩
  obtain ⟨hInvD, hEcd⟩ := hdFacts
  exact ⟨hInvD, evol_trans hE (evol_trans hEab (evol_trans hEbc hEcd)),
    stackOK_evol hokC2 hEcd⟩

/-- The regex-fallback parse of any body over a level-0 leaf root yields a
store satisfying the invariant, reached by an evolution from the singleton
root store. -/
theorem inv_parseWithRegexFallback (body : Str) (root : NodeData)
    (hch : root.children = []) (hlv : root.level = 0) :
    InvStore (parseWithRegexFallback body root) ∧
      Evol [root] (parseWithRegexFallback body root) := by
  have hfold : ∀ (l : List (SecMatch × Nat)) (st : PState),
      (InvStore st.store ∧ StackOK st.store st.stack ∧ Evol [root] st.store) →
      (InvStore (l.foldl (fun st p => stepSection body st p.1 p.2) st).store ∧
        StackOK (l.foldl (fun st p => stepSection body st p.1 p.2) st).store
          (l.foldl (fun st p => stepSection body st p.1 p.2) st).stack ∧
        Evol [root] (l.foldl (fun st p => stepSection body st p.1 p.2) st).store) := by
    intro l
    induction l with
    | nil => intro st h; exact h
    | cons p ps ih =>
      intro st h
      obtain ⟨h1, h2, h3⟩ := h
      refine ih (stepSection body st p.1 p.2) ?_
      obtain ⟨hA1, hA2⟩ := inv_looseAdd st.store st.stack
        (stripWs (sliceStr body st.pos p.1.start)) (st.pos < p.1.start)
        (stripWs (sliceStr body st.pos p.1.start) ≠ []) h1 h2
      obtain ⟨hI, hEv, hOK⟩ := stepSection_core st.store _ _ _ _ st.stack
        ⟨cleanLatexText p.1.arg,
          extractMainText (stripWs (sliceStr body p.1.stop p.2)),
          p.1.cmd, sectionLevelOf p.1.cmd, []⟩
        (extractRemainingContent (stripWs (sliceStr body p.1.stop p.2)))
        (sectionLevelOf p.1.cmd) _
        rfl rfl rfl rfl rfl rfl hA1 hA2 h2
      exact ⟨hI, hOK, evol_trans h3 hEv⟩
  have hinit : InvStore [root] ∧ StackOK [root] [(0, 0)] ∧ Evol [root] [root] := by
    refine ⟨⟨?_, ?_⟩, ?_, evol_refl _⟩
    · intro i c hc
      rcases i with _ | j
      · rw [show getN [root] 0 = root from rfl, hch] at hc
        exact absurd hc (List.not_mem_nil c)
      · rw [show getN [root] (j + 1) = dummyNode from rfl] at hc
        exact absurd hc (List.not_mem_nil c)
    · intro i c hc
      rcases i with _ | j
      · rw [show getN [root] 0 = root from rfl, hch] at hc
        exact absurd hc (List.not_mem_nil c)
      · rw [show getN [root] (j + 1) = dummyNode from rfl] at hc
        exact absurd hc (List.not_mem_nil c)
    · intro e hmem
      have he : e = (0, 0) := by simpa using hmem
      rw [he]
      refine ⟨by simp, ?_⟩
      show root.level = 0
      exact hlv
  obtain ⟨hI1, hOK1, hE1⟩ := hfold (pairWithNext (sectionScan body) body.length)
    ⟨0, [root], [(0, 0)]⟩ hinit
  exact ⟨(inv_looseAdd _ _ _ _ _ hI1 hOK1).1,
    evol_trans hE1 (inv_looseAdd _ _ _ _ _ hI1 hOK1).2⟩

/-- C6: in the tree built by the extraction pipeline, every child's level is
strictly greater than its parent's, and the root keeps level 0; but the root's
kind is only guaranteed to be `document` or `section_with_definition` (the
loose-content definition merge can retype the root), not always `document` as
claimed. -/
theorem C6_level_monotonicity (input : Str) (i c : Nat)
    (h : c ∈ (getN (parse input) i).children) :
    (getN (parse input) i).level < (getN (parse input) c).level ∧
      (getN (parse input) 0).level = 0 ∧
      ((getN (parse input) 0).ntype = "document".data ∨
        (getN (parse input) 0).ntype = "section_with_definition".data) := by
  obtain ⟨⟨hmono, _⟩, hevol⟩ := inv_parseWithRegexFallback
    (extractDocumentBody input)
    ⟨rootTitle input, [], "document".data, 0, []⟩ rfl rfl
  have h0 : (0 : Nat) <
      ([(⟨rootTitle input, [], "document".data, 0, []⟩ : NodeData)] : Store).length := by
    simp
  refine ⟨hmono i c h, ?_, ?_⟩
  · show (getN (parseWithRegexFallback (extractDocumentBody input)
        ⟨rootTitle input, [], "document".data, 0, []⟩) 0).level = 0
    rw [(hevol.2 0 h0).1]
    rfl
  · show (getN (parseWithRegexFallback (extractDocumentBody input)
          ⟨rootTitle input, [], "document".data, 0, []⟩) 0).ntype = "document".data ∨
        (getN (parseWithRegexFallback (extractDocumentBody input)
          ⟨rootTitle input, [], "document".data, 0, []⟩) 0).ntype =
          "section_with_definition".data
    exact (hevol.2 0 h0).2

/-- Witness for C6 at a concrete document: the root of
`parse "\section\x7bA\x7d"` has the section node 1 as a child, with a strictly
larger level, root level 0 and root kind in the allowed set. -/
theorem C6_witness :
    1 ∈ (getN (parse "\\section\x7bA\x7d".data) 0).children ∧
      ((getN (parse "\\section\x7bA\x7d".data) 0).level <
          (getN (parse "\\section\x7bA\x7d".data) 1).level ∧
        (getN (parse "\\section\x7bA\x7d".data) 0).level = 0 ∧
        ((getN (parse "\\section\x7bA\x7d".data) 0).ntype = "document".data ∨
          (getN (parse "\\section\x7bA\x7d".data) 0).ntype =
            "section_with_definition".data)) :=
  ⟨by decide, C6_level_monotonicity "\\section\x7bA\x7d".data 0 1 (by decide)⟩

/-- Counterexample to the "root has kind document" part of C6: a document
whose only content is a definition environment triggers the loose-content
merge at the root, retyping it to `section_with_definition`. -/
theorem C6_counterexample :
    (getN (parse "\\begin\x7bdefinition\x7dX\\end\x7bdefinition\x7d".data) 0).ntype ≠
        "document".data ∧
      (getN (parse "\\begin\x7bdefinition\x7dX\\end\x7bdefinition\x7d".data) 0).ntype =
        "section_with_definition".data := by
  decide

/-- C7: in compact (markmap) rendering, a node of kind other than
`equation_with_explanation` whose content exceeds the threshold and does not
start with `$` renders as a shortened title (at most 50 characters: the title
itself, or its first 47 characters plus an ellipsis) followed by a collapsible
detail block; and at or below the threshold such a node renders in one of the
four plain inline shapes, with no detail block.  The unqualified claim fails
both ways: over-threshold `$`-headed content gets no detail block, and a short
`equation_with_explanation` node can still get one. -/
theorem C7_truncation (title content ntype : Str) (truncateAt : Nat)
    (hnty : ntype ≠ "equation_with_explanation".data) :
    ((truncateAt < content.length ∧ content.headI ≠ '$' ∧ content ≠ [] ∧
        content ≠ title) →
      ∃ stitle label rest,
        formatNodeTitle title content ntype true truncateAt =
            stitle ++ detailsOpen label ++ rest ∧
          stitle.length ≤ 50 ∧
          (title.length ≤ 50 → stitle = title) ∧
          (50 < title.length → stitle = title.take 47 ++ "...".data)) ∧
    (content.length ≤ truncateAt →
      (formatNodeTitle title content ntype true truncateAt = title ∨
        formatNodeTitle title content ntype true truncateAt =
          title ++ " ".data ++ content ∨
        formatNodeTitle title content ntype true truncateAt =
          title ++ ": ".data ++ content ∨
        formatNodeTitle title content ntype true truncateAt =
          title ++ ": ".data ++ (content.take 200 ++ "...".data))) := by
  constructor
  · rintro ⟨hlen, hdollar, hcne, hcnt⟩
    have heq : formatNodeTitle title content ntype true truncateAt =
        (if title.length ≤ 50 then title else title.take 47 ++ "...".data) ++
          detailsOpen (if ntype = "section_with_definition".data
            then bookGlyphs ++ " Definition".data
            else bookGlyphs ++ " Details".data) ++
          formatTextForDisplay
            (stripWs (content.map (fun c => if c = '\n' then ' ' else c))) ++
          divClose := by
      simp only [formatNodeTitle]
      rw [if_pos (And.intro hcne hcnt)]
      rw [if_neg (fun hq => hnty hq.1)]
      rw [if_pos (And.intro trivial hlen)]
      rw [if_neg hdollar]
      rw [if_neg hnty]
    refine ⟨if title.length ≤ 50 then title else title.take 47 ++ "...".data,
      if ntype = "section_with_definition".data
        then bookGlyphs ++ " Definition".data else bookGlyphs ++ " Details".data,
      formatTextForDisplay
        (stripWs (content.map (fun c => if c = '\n' then ' ' else c))) ++ divClose,
      ?_, ?_, ?_, ?_⟩
    · rw [heq, List.append_assoc, List.append_assoc]
    · by_cases ht : title.length ≤ 50
      · rw [if_pos ht]; exact ht
      · rw [if_neg ht]
        simp only [List.length_append, List.length_take]
        have h3 : ("...".data).length = 3 := rfl
        rw [h3]
        omega
    · intro h; rw [if_pos h]
    · intro h; rw [if_neg (not_le.2 h)]
  · intro hlen
    by_cases hc1 : content ≠ [] ∧ content ≠ title
    · have hstep : formatNodeTitle title content ntype true truncateAt =
          (if 200 < content.length then
            (if content.headI = '$' then title ++ " ".data ++ content
              else title ++ ": ".data ++ (content.take 200 ++ "...".data))
          else
            (if content.headI = '$' then title ++ " ".data ++ content
              else title ++ ": ".data ++ content)) := by
        simp only [formatNodeTitle]
        rw [if_pos hc1]
        rw [if_neg (fun hq => hnty hq.1)]
        rw [if_neg (fun hq => absurd hq.2 (not_lt.2 hlen))]
      rw [hstep]
      by_cases h200 : 200 < content.length
      · rw [if_pos h200]
        by_cases hd : content.headI = '$'
        · rw [if_pos hd]; exact Or.inr (Or.inl rfl)
        · rw [if_neg hd]; exact Or.inr (Or.inr (Or.inr rfl))
      · rw [if_neg h200]
        by_cases hd : content.headI = '$'
        · rw [if_pos hd]; exact Or.inr (Or.inl rfl)
        · rw [if_neg hd]; exact Or.inr (Or.inr (Or.inl rfl))
    · have hstep : formatNodeTitle title content ntype true truncateAt = title := by
        simp only [formatNodeTitle]
        rw [if_neg hc1]
      exact Or.inl hstep

/-- Witness for C7 at concrete values: a `paragraph` node with 6-character
content over a threshold of 5 renders with a short title and a detail block,
and the same node under a threshold of 100 renders inline. -/
theorem C7_witness :
    ("paragraph".data ≠ "equation_with_explanation".data) ∧
      (((5 < ("abcdef".data : Str).length ∧ ("abcdef".data : Str).headI ≠ '$' ∧
          ("abcdef".data : Str) ≠ [] ∧ ("abcdef".data : Str) ≠ "T".data) →
        ∃ stitle label rest,
          formatNodeTitle "T".data "abcdef".data "paragraph".data true 5 =
              stitle ++ detailsOpen label ++ rest ∧
            stitle.length ≤ 50 ∧
            (("T".data : Str).length ≤ 50 → stitle = "T".data) ∧
            (50 < ("T".data : Str).length →
              stitle = ("T".data : Str).take 47 ++ "...".data)) ∧
      (("abcdef".data : Str).length ≤ 5 →
        (formatNodeTitle "T".data "abcdef".data "paragraph".data true 5 = "T".data ∨
          formatNodeTitle "T".data "abcdef".data "paragraph".data true 5 =
            "T".data ++ " ".data ++ "abcdef".data ∨
          formatNodeTitle "T".data "abcdef".data "paragraph".data true 5 =
            "T".data ++ ": ".data ++ "abcdef".data ∨
          formatNodeTitle "T".data "abcdef".data "paragraph".data true 5 =
            "T".data ++ ": ".data ++ (("abcdef".data : Str).take 200 ++ "...".data)))) :=
  ⟨by decide, C7_truncation "T".data "abcdef".data "paragraph".data 5 (by decide)⟩

/-- Counterexample to C7 as stated: an `equation_with_explanation` node whose
content (16 characters) is well below the threshold 100 still renders with a
collapsible detail block in markmap mode, while a 25-character `$`-headed
equation over threshold 5 renders with no detail block at all. -/
theorem C7_counterexample :
    (("$$x$$ short expl".data : Str).length ≤ 100 ∧
      containsSub "<details>".data
        (formatNodeTitle "Key Equation".data "$$x$$ short expl".data
          "equation_with_explanation".data true 100) = true) ∧
    (5 < ("$x+y+z$ is a long formula".data : Str).length ∧
      containsSub "<details>".data
        (formatNodeTitle "Equation".data "$x+y+z$ is a long formula".data
          "equation".data true 5) = false) := by
  decide

/-- C8: the code resolves the document title as (1) the sanitized `\title`
argument when that command matches, (2) otherwise the sanitized argument of
the first `(sub)*section` match, (3) otherwise the placeholder — with an empty
sanitized result also replaced by the placeholder.  Step (2) searches only
`(sub)*section`, not all seven sectioning commands as the spec says. -/
theorem C8_title_resolution (input : Str) :
    (∀ a, argScan "\\title\x7b".data input = some a →
      rootTitle input = (if cleanLatexText a = [] then defaultDocTitle
        else cleanLatexText a)) ∧
    (argScan "\\title\x7b".data input = none →
      (∀ m ms, sectionScan input = m :: ms →
        rootTitle input = (if cleanLatexText m.arg = [] then defaultDocTitle
          else cleanLatexText m.arg)) ∧
      (sectionScan input = [] → rootTitle input = defaultDocTitle)) := by
  refine ⟨?_, ?_⟩
  · intro a ha
    simp only [rootTitle, extractDocumentTitle, ha]
  · intro h0
    refine ⟨?_, ?_⟩
    · intro m ms hms
      simp only [rootTitle, extractDocumentTitle, h0, hms, List.head?, Option.map]
    · intro hnil
      simp only [rootTitle, extractDocumentTitle, h0, hnil, List.head?, Option.map]

/-- Witness for C8 at a concrete input: with `\title\x7bT\x7d` present the
root title is the sanitized title argument. -/
theorem C8_witness :
    argScan "\\title\x7b".data "\\title\x7bT\x7d\\section\x7bA\x7d".data =
        some "T".data ∧
      rootTitle "\\title\x7bT\x7d\\section\x7bA\x7d".data =
        (if cleanLatexText "T".data = [] then defaultDocTitle
          else cleanLatexText "T".data) :=
  ⟨by decide, (C8_title_resolution "\\title\x7bT\x7d\\section\x7bA\x7d".data).1
    "T".data (by decide)⟩

/-- Counterexample to C8 as stated: for `\chapter\x7bIntro\x7d\section\x7bA\x7d`
the first sectioning command per the spec is `\chapter` with argument `Intro`,
but the code's fallback regex only matches `(sub)*section`, so the resolved
title is `A`. -/
theorem C8_counterexample :
    rootTitle "\\chapter\x7bIntro\x7d\\section\x7bA\x7d".data = "A".data ∧
      specDocumentTitle "\\chapter\x7bIntro\x7d\\section\x7bA\x7d".data =
        "Intro".data ∧
      rootTitle "\\chapter\x7bIntro\x7d\\section\x7bA\x7d".data ≠
        specDocumentTitle "\\chapter\x7bIntro\x7d\\section\x7bA\x7d".data := by
  decide

end LatexMindmap
